import Mathlib

/-!
# TransactionLog (src/Interpreters/TransactionLog.cpp)

A shallow embedding of the MVCC transaction manager `DB::TransactionLog`:
its three counters, the running registry, the snapshots-in-use list and the
committed-TID map, with `beginTransaction`, `commitTransaction`,
`rollbackTransaction`, `tryGetRunningTransaction`, `getCSN`,
`getLatestSnapshot` and `getOldestSnapshot` as state-passing functions.

The mutexes are not modelled: every member function body is one atomic step
of a sequential state machine.
-/

namespace DB

/-- Modelled from the spec: the integer types `CSN`, `Snapshot`, `LocalTID` and
`TIDHash` are declared in headers that are not part of the sources at hand; the
spec describes a CSN as an "unsigned monotonically increasing integer" and a
snapshot as "a CSN value", so they are natural numbers here. -/
abbrev CSN := Nat

abbrev Snapshot := CSN

abbrev LocalTID := Nat

abbrev TIDHash := Nat

abbrev UUID := Nat

/-- Modelled from the spec: a TID is the tuple
`(snapshot, local_id, process_instance_id)`; two TIDs are equal iff all three
fields match. -/
structure TransactionID where
  start_csn : CSN
  local_tid : LocalTID
  host_id : UUID
deriving DecidableEq, Repr

/-- The names of `namespace Tx`, `TransactionID::getHash` and
`ServerUUID::get()`, none of which is defined in the sources at hand: they are
parameters of the development. -/
structure Tx where
  UnknownCSN : CSN
  PrehistoricCSN : CSN
  MaxReservedCSN : CSN
  MaxReservedLocalTID : LocalTID
  EmptyTID : TransactionID
  PrehistoricTID : TransactionID
  getHash : TransactionID → TIDHash
  server_uuid : UUID

/-- What the spec and the assertions of `getCSN` assume about the parameters:
the hash has no collisions, a TID never hashes to zero, and the two sentinel
TIDs have local ids inside the reserved range. -/
structure Tx.WF (tx : Tx) : Prop where
  hash_inj : Function.Injective tx.getHash
  hash_ne_zero : ∀ t, tx.getHash t ≠ 0
  empty_reserved : tx.EmptyTID.local_tid ≤ tx.MaxReservedLocalTID
  prehistoric_reserved : tx.PrehistoricTID.local_tid ≤ tx.MaxReservedLocalTID

/-- A position in `std::list<Snapshot>`: the address of a list node. -/
abbrev ListIt := Nat

/-- The fields of `MergeTreeTransaction` that `TransactionLog` reads and
writes. -/
structure MergeTreeTransaction where
  tid : TransactionID
  snapshot : Snapshot
  snapshot_in_use_it : ListIt
deriving DecidableEq, Repr

inductive Exception where
  | LOGICAL_ERROR
  | other (code : Nat)
deriving DecidableEq, Repr

/-! ## Containers -/

/-- `std::unordered_map::find`, on the map kept as a list of key/value
pairs. -/
def umap_find {β : Type} : List (TIDHash × β) → TIDHash → Option β
  | [], _ => none
  | (k', v) :: rest, k => if k' = k then some v else umap_find rest k

/-- `std::unordered_map::try_emplace`: inserts only when the key is absent;
the flag is the `.second` of the returned pair. -/
def umap_try_emplace {β : Type} (m : List (TIDHash × β)) (k : TIDHash) (v : β) :
    List (TIDHash × β) × Bool :=
  if (umap_find m k).isSome then (m, false) else (m ++ [(k, v)], true)

/-- `std::unordered_map::erase(key)`: the flag is the number of removed
elements converted to `bool`. -/
def umap_erase {β : Type} (m : List (TIDHash × β)) (k : TIDHash) :
    List (TIDHash × β) × Bool :=
  (m.filter (fun e => decide (e.1 ≠ k)), (umap_find m k).isSome)

/-- `std::list::insert(end(), v)`: the new node, at address `a`, goes last. -/
def list_insert_end (l : List (ListIt × Snapshot)) (a : ListIt) (v : Snapshot) :
    List (ListIt × Snapshot) :=
  l ++ [(a, v)]

/-- `std::list::erase(it)`: unlinks the node at address `it`. -/
def list_erase (l : List (ListIt × Snapshot)) (it : ListIt) : List (ListIt × Snapshot) :=
  l.filter (fun n => decide (n.1 ≠ it))

/-! ## The manager -/

/-- The data members of `TransactionLog`. `node_alloc` is not a member: it is
the next address the allocator hands out for a node of `snapshots_in_use`. -/
structure TransactionLog where
  latest_snapshot : Snapshot
  csn_counter : CSN
  local_tid_counter : LocalTID
  running_list : List (TIDHash × MergeTreeTransaction)
  snapshots_in_use : List (ListIt × Snapshot)
  tid_to_csn : List (TIDHash × CSN)
  node_alloc : ListIt
deriving DecidableEq, Repr

/-- The constructor `TransactionLog::TransactionLog()`. -/
def TransactionLog.init (tx : Tx) : TransactionLog :=
  { latest_snapshot := tx.MaxReservedCSN
    csn_counter := tx.MaxReservedCSN
    local_tid_counter := tx.MaxReservedLocalTID
    running_list := []
    snapshots_in_use := []
    tid_to_csn := []
    node_alloc := 0 }

def getLatestSnapshot (s : TransactionLog) : Snapshot :=
  s.latest_snapshot

/-- `TransactionLog::beginTransaction`. The transaction object is shared with
the registry, so the registry entry carries the position assigned on the last
line of the locked block. On the throwing path the counter has already been
advanced by `fetch_add`. -/
def beginTransaction (tx : Tx) (s : TransactionLog) :
    TransactionLog × Except Exception MergeTreeTransaction :=
  let snapshot := s.latest_snapshot
  let ltid := 1 + s.local_tid_counter
  let s1 := { s with local_tid_counter := s.local_tid_counter + 1 }
  let txn : MergeTreeTransaction :=
    { tid := ⟨snapshot, ltid, tx.server_uuid⟩
      snapshot := snapshot
      snapshot_in_use_it := s1.node_alloc }
  let r := umap_try_emplace s1.running_list (tx.getHash txn.tid) txn
  if r.2 = false then
    (s1, .error .LOGICAL_ERROR)
  else
    ({ s1 with
        running_list := r.1
        snapshots_in_use := list_insert_end s1.snapshots_in_use s1.node_alloc snapshot
        node_alloc := s1.node_alloc + 1 },
      .ok txn)

/-- Modelled from the spec: the hooks of the transaction object, whose class
is not part of the sources at hand, as they answer at one call of
`commitTransaction`. `beforeCommit()` "may itself fail"; `isReadOnly()` tells
whether the transaction performed no writes; `afterCommit(CSN)` lets the object
finalize and is given no failure outcome. -/
structure CommitHooks where
  beforeCommit : Option Exception
  isReadOnly : Bool
deriving DecidableEq, Repr

/-- `TransactionLog::commitTransaction`. The state is returned on the throwing
paths too, as the exception leaves it. -/
def commitTransaction (tx : Tx) (s : TransactionLog) (txn : MergeTreeTransaction)
    (hooks : CommitHooks) : TransactionLog × Except Exception CSN :=
  match hooks.beforeCommit with
  | some e => (s, .error e)
  | none =>
    let commit_point : TransactionLog × Except Exception CSN :=
      if hooks.isReadOnly then
        (s, .ok txn.snapshot)
      else
        let new_csn := 1 + s.csn_counter
        let s1 := { s with csn_counter := s.csn_counter + 1 }
        let r := umap_try_emplace s1.tid_to_csn (tx.getHash txn.tid) new_csn
        if r.2 = false then
          (s1, .error .LOGICAL_ERROR)
        else
          ({ s1 with tid_to_csn := r.1, latest_snapshot := new_csn }, .ok new_csn)
    match commit_point with
    | (s2, .error e) => (s2, .error e)
    | (s2, .ok new_csn) =>
      -- txn->afterCommit(new_csn)
      let r := umap_erase s2.running_list (tx.getHash txn.tid)
      if r.2 = false then
        ({ s2 with running_list := r.1 }, .error .LOGICAL_ERROR)
      else
        ({ s2 with
            running_list := r.1
            snapshots_in_use := list_erase s2.snapshots_in_use txn.snapshot_in_use_it },
          .ok new_csn)

/-- How a call of the `noexcept` function `rollbackTransaction` ends: it
returns, or `abort()` terminates the process in the given state. -/
inductive RollbackOutcome where
  | returned (s : TransactionLog)
  | aborted (s : TransactionLog)
deriving DecidableEq, Repr

/-- `TransactionLog::rollbackTransaction`; `need_rollback` is what the hook
`txn->rollback()` returns at this call. -/
def rollbackTransaction (tx : Tx) (s : TransactionLog) (txn : MergeTreeTransaction)
    (need_rollback : Bool) : RollbackOutcome :=
  if need_rollback then
    let r := umap_erase s.running_list (tx.getHash txn.tid)
    if r.2 = false then
      .aborted { s with running_list := r.1 }
    else
      .returned { s with
        running_list := r.1
        snapshots_in_use := list_erase s.snapshots_in_use txn.snapshot_in_use_it }
  else
    .returned s

def tryGetRunningTransaction (s : TransactionLog) (tid : TIDHash) :
    Option MergeTreeTransaction :=
  umap_find s.running_list tid

/-- `TransactionLog::getCSN(const TIDHash &)`; `none` is a failed
assertion. -/
def getCSN (tx : Tx) (s : TransactionLog) (tid : TIDHash) : Option CSN :=
  if tid = 0 then none
  else if tid = tx.getHash tx.EmptyTID then none
  else if tid = tx.getHash tx.PrehistoricTID then some tx.PrehistoricCSN
  else
    match umap_find s.tid_to_csn tid with
    | none => some tx.UnknownCSN
    | some csn => some csn

/-- `TransactionLog::getCSN(const TransactionID &)`. -/
def getCSN_tid (tx : Tx) (s : TransactionLog) (tid : TransactionID) : Option CSN :=
  getCSN tx s (tx.getHash tid)

/-- `TransactionLog::getOldestSnapshot`. -/
def getOldestSnapshot (s : TransactionLog) : Snapshot :=
  match s.snapshots_in_use with
  | [] => getLatestSnapshot s
  | front :: _ => front.2

/-! ## Call sequences -/

/-- One call on the manager. A transaction handle is named by its position
among the handles returned by `beginTransaction` so far; the remaining
arguments are what the hooks of the transaction object answer at that call. -/
inductive Call where
  | begin
  | commit (i : Nat) (hooks : CommitHooks)
  | rollback (i : Nat) (need_rollback : Bool)
deriving DecidableEq, Repr

/-- What a call returned to its caller. -/
inductive Event where
  | began (txn : MergeTreeTransaction)
  | beginFailed (e : Exception)
  | committed (txn : MergeTreeTransaction) (readonly : Bool) (csn : CSN)
  | commitFailed (txn : MergeTreeTransaction) (e : Exception)
  | rolledBack (txn : MergeTreeTransaction) (need_rollback : Bool)
deriving DecidableEq, Repr

/-- The manager together with its callers: the handles handed out so far, in
the order of their `beginTransaction`, and what each call returned, in call
order. -/
structure World where
  log : TransactionLog
  issued : List MergeTreeTransaction
  trace : List Event
deriving DecidableEq, Repr

def World.init (tx : Tx) : World :=
  { log := TransactionLog.init tx, issued := [], trace := [] }

/-- One call. `none`: the handle does not exist, or `abort()` ended the
process. -/
def step (tx : Tx) (w : World) : Call → Option World
  | .begin =>
    match beginTransaction tx w.log with
    | (s, .ok txn) =>
      some { log := s, issued := w.issued ++ [txn], trace := w.trace ++ [.began txn] }
    | (s, .error e) =>
      some { w with log := s, trace := w.trace ++ [.beginFailed e] }
  | .commit i hooks =>
    match w.issued[i]? with
    | none => none
    | some txn =>
      match commitTransaction tx w.log txn hooks with
      | (s, .ok csn) =>
        some { w with log := s, trace := w.trace ++ [.committed txn hooks.isReadOnly csn] }
      | (s, .error e) =>
        some { w with log := s, trace := w.trace ++ [.commitFailed txn e] }
  | .rollback i need_rollback =>
    match w.issued[i]? with
    | none => none
    | some txn =>
      match rollbackTransaction tx w.log txn need_rollback with
      | .returned s =>
        some { w with log := s, trace := w.trace ++ [.rolledBack txn need_rollback] }
      | .aborted _ => none

/-- A sequence of calls, from the world `w`. -/
def run (tx : Tx) (w : World) : List Call → Option World
  | [] => some w
  | c :: cs => (step tx w c).bind (fun w1 => run tx w1 cs)

/-- The manager states a freshly constructed `TransactionLog` can be brought
to by a sequence of calls. -/
def Reachable (tx : Tx) (w : World) : Prop :=
  ∃ calls, run tx (World.init tx) calls = some w

/-- The transaction `txn` is in the running registry. -/
def Running (tx : Tx) (s : TransactionLog) (txn : MergeTreeTransaction) : Prop :=
  tryGetRunningTransaction s (tx.getHash txn.tid) = some txn

instance (tx : Tx) (s : TransactionLog) (txn : MergeTreeTransaction) :
    Decidable (Running tx s txn) :=
  inferInstanceAs (Decidable (tryGetRunningTransaction s (tx.getHash txn.tid) = some txn))

/-- What `commitTransaction` returned, when the event is a successful
commit. -/
def Event.returnedCSN : Event → Option CSN
  | .committed _ _ csn => some csn
  | _ => none

/-- What `commitTransaction` returned, when the event is a successful commit
of a write transaction. -/
def Event.writeCSN : Event → Option CSN
  | .committed _ false csn => some csn
  | _ => none

/-- The CSNs returned by the successful commits of a trace, in call order. -/
def returnedCSNs (trace : List Event) : List CSN :=
  trace.filterMap Event.returnedCSN

/-- The CSNs returned by the successful commits of write transactions, in
call order. -/
def writeCSNs (trace : List Event) : List CSN :=
  trace.filterMap Event.writeCSN

/-- A sample of the parameters: sentinels 0 and 1 below a reserved ceiling of
16, and a pairing function, shifted off zero, as the hash. -/
def Tx.sample : Tx :=
  { UnknownCSN := 0
    PrehistoricCSN := 1
    MaxReservedCSN := 16
    MaxReservedLocalTID := 16
    EmptyTID := ⟨0, 0, 0⟩
    PrehistoricTID := ⟨1, 1, 0⟩
    getHash := fun t => Nat.pair t.start_csn (Nat.pair t.local_tid t.host_id) + 1
    server_uuid := 7 }

/-- A call sequence on which the sample worlds are built: two transactions
begin, the first commits a write, a third begins. -/
def sampleCalls : List Call :=
  [.begin, .begin, .commit 0 ⟨none, false⟩, .begin]

/-- The world after `sampleCalls`: the second and the third transaction are
running, with snapshots 16 and 17. -/
def World.sample : World :=
  (run Tx.sample (World.init Tx.sample) sampleCalls).getD (World.init Tx.sample)

/-- The first transaction a fresh manager hands out under `Tx.sample`. -/
def sampleTxn0 : MergeTreeTransaction :=
  { tid := ⟨16, 17, 7⟩, snapshot := 16, snapshot_in_use_it := 0 }

/-- The second transaction a fresh manager hands out under `Tx.sample`. -/
def sampleTxn1 : MergeTreeTransaction :=
  { tid := ⟨16, 18, 7⟩, snapshot := 16, snapshot_in_use_it := 1 }

/-- The world after two transactions began on a fresh manager. -/
def World.sampleTwo : World :=
  (run Tx.sample (World.init Tx.sample) [.begin, .begin]).getD (World.init Tx.sample)

/-- The world after two transactions began on a fresh manager and both
committed writes, the first one first. -/
def World.sampleCommits : World :=
  (run Tx.sample (World.init Tx.sample)
    [.begin, .begin, .commit 0 ⟨none, false⟩, .commit 1 ⟨none, false⟩]).getD
    (World.init Tx.sample)

/-- The world after two transactions began on a fresh manager, the first
committed a write and the second then committed without having written. -/
def World.sampleMixed : World :=
  (run Tx.sample (World.init Tx.sample)
    [.begin, .begin, .commit 0 ⟨none, false⟩, .commit 1 ⟨none, true⟩]).getD
    (World.init Tx.sample)

/-- The manager state in which a call of `rollbackTransaction` ended. -/
def RollbackOutcome.state : RollbackOutcome → TransactionLog
  | .returned s => s
  | .aborted s => s

/-- Parameters under which every TID has the same hash. -/
def Tx.colliding : Tx :=
  { Tx.sample with getHash := fun _ => 1 }

/-- The one-transaction state of a manager whose hash collides: the next
`beginTransaction` finds the hash of its new TID in the running registry. -/
def TransactionLog.sampleColliding : TransactionLog :=
  (beginTransaction Tx.colliding (TransactionLog.init Tx.colliding)).1

/-- The world after a transaction began on a fresh manager and was rolled
back. -/
def World.sampleRolledBack : World :=
  (run Tx.sample (World.init Tx.sample) [.begin, .rollback 0 true]).getD (World.init Tx.sample)

/-- The world after one transaction began on a fresh manager. -/
def World.sampleOne : World :=
  (run Tx.sample (World.init Tx.sample) [.begin]).getD (World.init Tx.sample)

/-- The number of `beginTransaction` calls of a call sequence, the failed
ones included. -/
def beginCalls : List Call → Nat
  | [] => 0
  | .begin :: calls => beginCalls calls + 1
  | _ :: calls => beginCalls calls

/-- Whether a call reaches the commit point, the block under `commit_mutex`: a
commit whose pre-commit hook succeeded and whose transaction is not
read-only. -/
def Call.reachesCommitPoint : Call → Bool
  | .commit _ hooks => hooks.beforeCommit.isNone && !hooks.isReadOnly
  | _ => false

/-- The number of calls of a call sequence that reach the commit point. -/
def commitPointCalls : List Call → Nat
  | [] => 0
  | c :: calls => c.reachesCommitPoint.toNat + commitPointCalls calls

/-- The invariant of the two counters against the handles handed out and the
CSNs returned; it does not depend on the hash. -/
structure Counters (tx : Tx) (w : World) : Prop where
  ltid_ge : tx.MaxReservedLocalTID ≤ w.log.local_tid_counter
  issued_gt : ∀ t ∈ w.issued,
    tx.MaxReservedLocalTID < t.tid.local_tid ∧ t.tid.local_tid ≤ w.log.local_tid_counter
  issued_sorted : (w.issued.map (fun t => t.tid.local_tid)).Pairwise (· < ·)
  csn_ge : tx.MaxReservedCSN ≤ w.log.csn_counter
  write_gt : ∀ c ∈ writeCSNs w.trace, tx.MaxReservedCSN < c

/-- A call sequence with a failed second commit of an already committed
transaction between two successful write commits. -/
def recommitCalls : List Call :=
  [.begin, .begin, .commit 0 ⟨none, false⟩, .commit 0 ⟨none, false⟩]

/-- The world after `recommitCalls`. -/
def World.sampleRecommit : World :=
  (run Tx.sample (World.init Tx.sample) recommitCalls).getD (World.init Tx.sample)

/-! ## The blocks of the member functions and the invariants -/

/-- The transaction object `beginTransaction` constructs in the state `s`. -/
def newTxn (tx : Tx) (s : TransactionLog) : MergeTreeTransaction :=
  { tid := ⟨s.latest_snapshot, 1 + s.local_tid_counter, tx.server_uuid⟩
    snapshot := s.latest_snapshot
    snapshot_in_use_it := s.node_alloc }

/-- The state after the locked block of `beginTransaction` ran to its end. -/
def register (tx : Tx) (s : TransactionLog) : TransactionLog :=
  { s with
    local_tid_counter := s.local_tid_counter + 1
    running_list := s.running_list ++ [(tx.getHash (newTxn tx s).tid, newTxn tx s)]
    snapshots_in_use := s.snapshots_in_use ++ [(s.node_alloc, s.latest_snapshot)]
    node_alloc := s.node_alloc + 1 }

/-- The state after the block under `commit_mutex` ran to its end. -/
def commitPoint (tx : Tx) (s : TransactionLog) (txn : MergeTreeTransaction) : TransactionLog :=
  { s with
    csn_counter := s.csn_counter + 1
    tid_to_csn := s.tid_to_csn ++ [(tx.getHash txn.tid, 1 + s.csn_counter)]
    latest_snapshot := 1 + s.csn_counter }

/-- The state after the last locked block of `commitTransaction` and of
`rollbackTransaction` ran to its end. -/
def deregister (tx : Tx) (s : TransactionLog) (txn : MergeTreeTransaction) : TransactionLog :=
  { s with
    running_list := (umap_erase s.running_list (tx.getHash txn.tid)).1
    snapshots_in_use := list_erase s.snapshots_in_use txn.snapshot_in_use_it }

/-- The node of `snapshots_in_use` that belongs to a registry entry. -/
def nodeOf (e : TIDHash × MergeTreeTransaction) : ListIt × Snapshot :=
  (e.2.snapshot_in_use_it, e.2.snapshot)

/-- Registry pairing: the snapshots-in-use list holds, for every entry of the
running registry and for nothing else, one node, at the position the
transaction retains and with the transaction's snapshot. -/
def Paired (s : TransactionLog) : Prop :=
  (s.running_list.map nodeOf).Perm s.snapshots_in_use ∧
    (s.snapshots_in_use.map Prod.fst).Nodup

/-- The invariant of the manager state `s` and of the handles `issued` by it. -/
structure Inv (tx : Tx) (s : TransactionLog) (issued : List MergeTreeTransaction) : Prop where
  keys : ∀ e ∈ s.running_list, e.1 = tx.getHash e.2.tid ∧ e.2 ∈ issued
  keys_nodup : (s.running_list.map Prod.fst).Nodup
  pairing : s.running_list.map nodeOf = s.snapshots_in_use
  its_nodup : (s.snapshots_in_use.map Prod.fst).Nodup
  its_lt : ∀ n ∈ s.snapshots_in_use, n.1 < s.node_alloc
  issued_ltid : ∀ t ∈ issued,
    tx.MaxReservedLocalTID < t.tid.local_tid ∧ t.tid.local_tid ≤ s.local_tid_counter
  issued_inj : ∀ t ∈ issued, ∀ t1 ∈ issued, t.tid = t1.tid → t = t1
  ltid_ge : tx.MaxReservedLocalTID ≤ s.local_tid_counter
  sorted : (s.snapshots_in_use.map Prod.snd).Pairwise (· ≤ ·)
  snap_le : ∀ n ∈ s.snapshots_in_use, n.2 ≤ s.latest_snapshot
  latest_le : s.latest_snapshot ≤ s.csn_counter
  latest_ge : tx.MaxReservedCSN ≤ s.latest_snapshot
  csn_le : ∀ e ∈ s.tid_to_csn, e.2 ≤ s.latest_snapshot
  csn_keys : ∀ e ∈ s.tid_to_csn, ∃ t ∈ issued, e.1 = tx.getHash t.tid

/-- No transaction of the running registry has an entry in the committed-TID
map. -/
def NotBoth (s : TransactionLog) : Prop :=
  ∀ e ∈ s.running_list, umap_find s.tid_to_csn e.1 = none

/-- The invariant that ties what the commits returned to the manager state. -/
structure TraceInv (tx : Tx) (s : TransactionLog) (issued : List MergeTreeTransaction)
    (trace : List Event) : Prop where
  commits : ∀ t c, Event.committed t false c ∈ trace →
    umap_find s.tid_to_csn (tx.getHash t.tid) = some c ∧ t ∈ issued
  increasing : (writeCSNs trace).Pairwise (· < ·)
  bounded : ∀ c ∈ writeCSNs trace, c ≤ s.latest_snapshot

/-- The invariant of a world. -/
def Good (tx : Tx) (w : World) : Prop :=
  Inv tx w.log w.issued ∧ NotBoth w.log ∧ TraceInv tx w.log w.issued w.trace

/-! ## Lemmas on the containers -/

theorem umap_find_some_mem {β : Type} {m : List (TIDHash × β)} {k : TIDHash} {v : β}
    (h : umap_find m k = some v) : (k, v) ∈ m := by
  induction m with
  | nil => simp [umap_find] at h
  | cons e rest ih =>
    obtain ⟨k', v'⟩ := e
    by_cases hk : k' = k
    · subst hk
      simp [umap_find] at h
      simp [h]
    · simp [umap_find, hk] at h
      exact List.mem_cons_of_mem _ (ih h)

theorem umap_find_none_iff {β : Type} {m : List (TIDHash × β)} {k : TIDHash} :
    umap_find m k = none ↔ ∀ e ∈ m, e.1 ≠ k := by
  induction m with
  | nil => simp [umap_find]
  | cons e rest ih =>
    obtain ⟨k', v'⟩ := e
    by_cases hk : k' = k
    · simp [umap_find, hk]
    · simp [umap_find, hk, ih]

theorem umap_find_of_mem {β : Type} {m : List (TIDHash × β)} {k : TIDHash} {v : β}
    (hnd : (m.map Prod.fst).Nodup) (h : (k, v) ∈ m) : umap_find m k = some v := by
  induction m with
  | nil => simp at h
  | cons e rest ih =>
    obtain ⟨k', v'⟩ := e
    simp only [List.map_cons, List.nodup_cons, List.mem_map, not_exists, not_and] at hnd
    rcases List.mem_cons.1 h with heq | hmem
    · cases heq
      simp [umap_find]
    · have hk : k' ≠ k := fun hkk => hnd.1 (k, v) hmem hkk.symm
      simp [umap_find, hk, ih hnd.2 hmem]

theorem umap_find_append_new {β : Type} {m : List (TIDHash × β)} {k : TIDHash} (v : β)
    (h : umap_find m k = none) : umap_find (m ++ [(k, v)]) k = some v := by
  induction m with
  | nil => simp [umap_find]
  | cons e rest ih =>
    obtain ⟨k', v'⟩ := e
    by_cases hk : k' = k
    · simp [umap_find, hk] at h
    · simp only [umap_find, hk, if_false] at h
      simp [umap_find, hk, ih h]

theorem umap_find_append_ne {β : Type} (m : List (TIDHash × β)) {k k1 : TIDHash} (v : β)
    (h : k ≠ k1) : umap_find (m ++ [(k, v)]) k1 = umap_find m k1 := by
  induction m with
  | nil => simp [umap_find, h]
  | cons e rest ih =>
    obtain ⟨k', v'⟩ := e
    by_cases hk : k' = k1
    · simp [umap_find, hk]
    · simp [umap_find, hk, ih]

theorem umap_find_append_some {β : Type} {m : List (TIDHash × β)} {k1 : TIDHash} {x : β}
    (l : List (TIDHash × β)) (h : umap_find m k1 = some x) :
    umap_find (m ++ l) k1 = some x := by
  induction m with
  | nil => simp [umap_find] at h
  | cons e rest ih =>
    obtain ⟨k', v'⟩ := e
    by_cases hk : k' = k1
    · simp [umap_find, hk] at h
      simp [umap_find, hk, h]
    · simp only [umap_find, hk, if_false] at h
      simp [umap_find, hk, ih h]

theorem umap_find_erase_self {β : Type} (m : List (TIDHash × β)) (k : TIDHash) :
    umap_find (umap_erase m k).1 k = none := by
  rw [umap_find_none_iff]
  intro e he
  simp only [umap_erase, List.mem_filter, decide_eq_true_eq] at he
  exact he.2

theorem umap_find_erase_ne {β : Type} (m : List (TIDHash × β)) {k k1 : TIDHash}
    (h : k1 ≠ k) : umap_find (umap_erase m k).1 k1 = umap_find m k1 := by
  induction m with
  | nil => simp [umap_erase, umap_find]
  | cons e rest ih =>
    obtain ⟨k', v'⟩ := e
    simp only [umap_erase] at ih
    by_cases hk : k' = k1
    · subst hk
      simp [umap_erase, umap_find, h, List.filter_cons]
    · by_cases hk2 : k' = k
      · subst hk2
        simp [umap_erase, umap_find, hk, List.filter_cons]
        simpa using ih
      · simp [umap_erase, umap_find, hk, hk2, List.filter_cons]
        simpa using ih

theorem umap_erase_absent {β : Type} {m : List (TIDHash × β)} {k : TIDHash}
    (h : umap_find m k = none) : (umap_erase m k).1 = m := by
  rw [umap_find_none_iff] at h
  simp only [umap_erase, List.filter_eq_self, decide_eq_true_eq]
  exact h

/-! ## The member functions, block by block -/

theorem beginTransaction_eq (tx : Tx) (s : TransactionLog) :
    beginTransaction tx s =
      if (umap_find s.running_list (tx.getHash (newTxn tx s).tid)).isSome then
        ({ s with local_tid_counter := s.local_tid_counter + 1 }, .error .LOGICAL_ERROR)
      else (register tx s, .ok (newTxn tx s)) := by
  unfold beginTransaction umap_try_emplace register newTxn list_insert_end
  cases h : (umap_find s.running_list
      (tx.getHash ⟨s.latest_snapshot, 1 + s.local_tid_counter, tx.server_uuid⟩)).isSome <;>
    simp [h]

theorem commitTransaction_failed_hook (tx : Tx) (s : TransactionLog) (txn : MergeTreeTransaction)
    (hooks : CommitHooks) (e : Exception) (hb : hooks.beforeCommit = some e) :
    commitTransaction tx s txn hooks = (s, .error e) := by
  simp [commitTransaction, hb]

theorem commitTransaction_readonly (tx : Tx) (s : TransactionLog) (txn : MergeTreeTransaction)
    (hooks : CommitHooks) (hb : hooks.beforeCommit = none) (hr : hooks.isReadOnly = true) :
    commitTransaction tx s txn hooks =
      if (umap_find s.running_list (tx.getHash txn.tid)).isSome then
        (deregister tx s txn, .ok txn.snapshot)
      else (s, .error .LOGICAL_ERROR) := by
  cases h : (umap_find s.running_list (tx.getHash txn.tid)).isSome
  · have h1 : (umap_erase s.running_list (tx.getHash txn.tid)).1 = s.running_list :=
      umap_erase_absent (by simpa using h)
    have h2 : (umap_erase s.running_list (tx.getHash txn.tid)).2 = false := by
      simp [umap_erase, h]
    simp [commitTransaction, hb, hr, h1, h2]
  · have h2 : (umap_erase s.running_list (tx.getHash txn.tid)).2 = true := by
      simp [umap_erase, h]
    simp [commitTransaction, hb, hr, h2, deregister]

theorem commitTransaction_write (tx : Tx) (s : TransactionLog) (txn : MergeTreeTransaction)
    (hooks : CommitHooks) (hb : hooks.beforeCommit = none) (hr : hooks.isReadOnly = false) :
    commitTransaction tx s txn hooks =
      if (umap_find s.tid_to_csn (tx.getHash txn.tid)).isSome then
        ({ s with csn_counter := s.csn_counter + 1 }, .error .LOGICAL_ERROR)
      else if (umap_find s.running_list (tx.getHash txn.tid)).isSome then
        (deregister tx (commitPoint tx s txn) txn, .ok (1 + s.csn_counter))
      else (commitPoint tx s txn, .error .LOGICAL_ERROR) := by
  cases hc : (umap_find s.tid_to_csn (tx.getHash txn.tid)).isSome
  · cases h : (umap_find s.running_list (tx.getHash txn.tid)).isSome
    · have h1 : (umap_erase s.running_list (tx.getHash txn.tid)).1 = s.running_list :=
        umap_erase_absent (by simpa using h)
      have h2 : (umap_erase s.running_list (tx.getHash txn.tid)).2 = false := by
        simp [umap_erase, h]
      simp [commitTransaction, hb, hr, umap_try_emplace, hc, h1, h2, commitPoint]
    · have h2 : (umap_erase s.running_list (tx.getHash txn.tid)).2 = true := by
        simp [umap_erase, h]
      simp [commitTransaction, hb, hr, umap_try_emplace, hc, h2, commitPoint, deregister]
  · simp [commitTransaction, hb, hr, umap_try_emplace, hc]

theorem rollbackTransaction_eq (tx : Tx) (s : TransactionLog) (txn : MergeTreeTransaction)
    (need_rollback : Bool) :
    rollbackTransaction tx s txn need_rollback =
      if need_rollback then
        if (umap_find s.running_list (tx.getHash txn.tid)).isSome then
          .returned (deregister tx s txn)
        else .aborted s
      else .returned s := by
  cases need_rollback
  · simp [rollbackTransaction]
  · cases h : (umap_find s.running_list (tx.getHash txn.tid)).isSome
    · have h1 : (umap_erase s.running_list (tx.getHash txn.tid)).1 = s.running_list :=
        umap_erase_absent (by simpa using h)
      have h2 : (umap_erase s.running_list (tx.getHash txn.tid)).2 = false := by
        simp [umap_erase, h]
      simp [rollbackTransaction, h1, h2]
    · have h2 : (umap_erase s.running_list (tx.getHash txn.tid)).2 = true := by
        simp [umap_erase, h]
      simp [rollbackTransaction, h2, deregister]

/-! ## The invariant is kept by every block -/

theorem inv_init (tx : Tx) : Inv tx (TransactionLog.init tx) [] where
  keys := by simp [TransactionLog.init]
  keys_nodup := by simp [TransactionLog.init]
  pairing := by simp [TransactionLog.init]
  its_nodup := by simp [TransactionLog.init]
  its_lt := by simp [TransactionLog.init]
  issued_ltid := by simp
  issued_inj := by simp
  ltid_ge := by simp [TransactionLog.init]
  sorted := by simp [TransactionLog.init]
  snap_le := by simp [TransactionLog.init]
  latest_le := by simp [TransactionLog.init]
  latest_ge := by simp [TransactionLog.init]
  csn_le := by simp [TransactionLog.init]
  csn_keys := by simp [TransactionLog.init]

theorem inv_bump_local_tid {tx : Tx} {s : TransactionLog} {issued : List MergeTreeTransaction}
    (h : Inv tx s issued) :
    Inv tx { s with local_tid_counter := s.local_tid_counter + 1 } issued where
  keys := h.keys
  keys_nodup := h.keys_nodup
  pairing := h.pairing
  its_nodup := h.its_nodup
  its_lt := h.its_lt
  issued_ltid := fun t ht => ⟨(h.issued_ltid t ht).1, Nat.le_succ_of_le (h.issued_ltid t ht).2⟩
  issued_inj := h.issued_inj
  ltid_ge := Nat.le_succ_of_le h.ltid_ge
  sorted := h.sorted
  snap_le := h.snap_le
  latest_le := h.latest_le
  latest_ge := h.latest_ge
  csn_le := h.csn_le
  csn_keys := h.csn_keys

theorem inv_bump_csn {tx : Tx} {s : TransactionLog} {issued : List MergeTreeTransaction}
    (h : Inv tx s issued) :
    Inv tx { s with csn_counter := s.csn_counter + 1 } issued where
  keys := h.keys
  keys_nodup := h.keys_nodup
  pairing := h.pairing
  its_nodup := h.its_nodup
  its_lt := h.its_lt
  issued_ltid := h.issued_ltid
  issued_inj := h.issued_inj
  ltid_ge := h.ltid_ge
  sorted := h.sorted
  snap_le := h.snap_le
  latest_le := Nat.le_succ_of_le h.latest_le
  latest_ge := h.latest_ge
  csn_le := h.csn_le
  csn_keys := h.csn_keys

theorem newTxn_fresh {tx : Tx} {s : TransactionLog} {issued : List MergeTreeTransaction}
    (h : Inv tx s issued) : ∀ t ∈ issued, t.tid ≠ (newTxn tx s).tid := by
  intro t ht heq
  have h1 := (h.issued_ltid t ht).2
  rw [heq] at h1
  have h2 : (1 + s.local_tid_counter : Nat) ≤ s.local_tid_counter := h1
  omega

theorem inv_register {tx : Tx} {s : TransactionLog} {issued : List MergeTreeTransaction}
    (h : Inv tx s issued)
    (hnew : umap_find s.running_list (tx.getHash (newTxn tx s).tid) = none) :
    Inv tx (register tx s) (issued ++ [newTxn tx s]) where
  keys := by
    intro e he
    simp only [register, List.mem_append, List.mem_singleton] at he
    rcases he with he | he
    · exact ⟨(h.keys e he).1, List.mem_append_left _ (h.keys e he).2⟩
    · subst he
      exact ⟨rfl, by simp⟩
  keys_nodup := by
    simp only [register, List.map_append, List.map_cons, List.map_nil]
    rw [List.nodup_append]
    refine ⟨h.keys_nodup, by simp, ?_⟩
    intro k hk hk2
    simp only [List.mem_singleton] at hk2
    subst hk2
    obtain ⟨e, he, hek⟩ := List.mem_map.1 hk
    exact (umap_find_none_iff.1 hnew) e he hek
  pairing := by
    simp only [register, List.map_append, List.map_cons, List.map_nil, h.pairing]
    rfl
  its_nodup := by
    simp only [register, List.map_append, List.map_cons, List.map_nil]
    rw [List.nodup_append]
    refine ⟨h.its_nodup, by simp, ?_⟩
    intro a ha ha2
    simp only [List.mem_singleton] at ha2
    subst ha2
    obtain ⟨n, hn, hna⟩ := List.mem_map.1 ha
    have h1 : n.1 < s.node_alloc := h.its_lt n hn
    rw [hna] at h1
    exact Nat.lt_irrefl _ h1
  its_lt := by
    intro n hn
    simp only [register, List.mem_append, List.mem_singleton] at hn
    simp only [register]
    rcases hn with hn | hn
    · exact Nat.lt_succ_of_lt (h.its_lt n hn)
    · subst hn
      exact Nat.lt_succ_self _
  issued_ltid := by
    intro t ht
    simp only [List.mem_append, List.mem_singleton] at ht
    simp only [register]
    rcases ht with ht | ht
    · exact ⟨(h.issued_ltid t ht).1, Nat.le_succ_of_le (h.issued_ltid t ht).2⟩
    · subst ht
      refine ⟨Nat.lt_of_le_of_lt h.ltid_ge ?_, ?_⟩
      · show s.local_tid_counter < 1 + s.local_tid_counter
        rw [Nat.add_comm]
        exact Nat.lt_succ_self _
      · show 1 + s.local_tid_counter ≤ s.local_tid_counter + 1
        rw [Nat.add_comm]
  issued_inj := by
    intro t ht t1 ht1 heq
    simp only [List.mem_append, List.mem_singleton] at ht ht1
    rcases ht with ht | ht <;> rcases ht1 with ht1 | ht1
    · exact h.issued_inj t ht t1 ht1 heq
    · subst ht1
      exact absurd heq (newTxn_fresh h t ht)
    · subst ht
      exact absurd heq.symm (newTxn_fresh h t1 ht1)
    · rw [ht, ht1]
  ltid_ge := Nat.le_succ_of_le h.ltid_ge
  sorted := by
    simp only [register, List.map_append, List.map_cons, List.map_nil]
    rw [List.pairwise_append]
    refine ⟨h.sorted, by simp, ?_⟩
    intro a ha b hb
    simp only [List.mem_singleton] at hb
    subst hb
    obtain ⟨n, hn, hna⟩ := List.mem_map.1 ha
    rw [← hna]
    exact h.snap_le n hn
  snap_le := by
    intro n hn
    simp only [register, List.mem_append, List.mem_singleton] at hn
    simp only [register]
    rcases hn with hn | hn
    · exact h.snap_le n hn
    · subst hn
      exact Nat.le_refl _
  latest_le := h.latest_le
  latest_ge := h.latest_ge
  csn_le := h.csn_le
  csn_keys := by
    intro e he
    obtain ⟨t, ht, hte⟩ := h.csn_keys e he
    exact ⟨t, List.mem_append_left _ ht, hte⟩

theorem inv_commitPoint {tx : Tx} {s : TransactionLog} {issued : List MergeTreeTransaction}
    (h : Inv tx s issued) {txn : MergeTreeTransaction} (ht : txn ∈ issued) :
    Inv tx (commitPoint tx s txn) issued where
  keys := h.keys
  keys_nodup := h.keys_nodup
  pairing := h.pairing
  its_nodup := h.its_nodup
  its_lt := h.its_lt
  issued_ltid := h.issued_ltid
  issued_inj := h.issued_inj
  ltid_ge := h.ltid_ge
  sorted := h.sorted
  snap_le := fun n hn =>
    Nat.le_trans (h.snap_le n hn) (Nat.le_trans h.latest_le (Nat.le_add_left _ _))
  latest_le := Nat.le_of_eq (Nat.add_comm _ _)
  latest_ge := Nat.le_trans h.latest_ge (Nat.le_trans h.latest_le (Nat.le_add_left _ _))
  csn_le := by
    intro e he
    simp only [commitPoint, List.mem_append, List.mem_singleton] at he
    rcases he with he | he
    · exact Nat.le_trans (h.csn_le e he) (Nat.le_trans h.latest_le (Nat.le_add_left _ _))
    · subst he
      exact Nat.le_refl _
  csn_keys := by
    intro e he
    simp only [commitPoint, List.mem_append, List.mem_singleton] at he
    rcases he with he | he
    · exact h.csn_keys e he
    · subst he
      exact ⟨txn, ht, rfl⟩

/-- A handle whose hash is in the running registry is the registered
transaction itself. -/
theorem running_of_issued {tx : Tx} (hwf : tx.WF) {s : TransactionLog}
    {issued : List MergeTreeTransaction} (h : Inv tx s issued) {txn : MergeTreeTransaction}
    (ht : txn ∈ issued) (hr : (umap_find s.running_list (tx.getHash txn.tid)).isSome) :
    (tx.getHash txn.tid, txn) ∈ s.running_list := by
  obtain ⟨t1, h1⟩ := Option.isSome_iff_exists.1 hr
  have hmem := umap_find_some_mem h1
  have hk := h.keys _ hmem
  have htid : txn.tid = t1.tid := hwf.hash_inj hk.1
  have : txn = t1 := h.issued_inj txn ht t1 hk.2 htid
  rw [this]
  rw [this] at hmem
  exact hmem

/-- In the registry, the entry with the key of a registered transaction is the
one whose node sits at the position the transaction retains. -/
theorem key_ne_iff_it_ne {tx : Tx} {s : TransactionLog} {issued : List MergeTreeTransaction}
    (h : Inv tx s issued) {txn : MergeTreeTransaction}
    (hm : (tx.getHash txn.tid, txn) ∈ s.running_list) :
    ∀ e ∈ s.running_list,
      decide ((nodeOf e).1 ≠ txn.snapshot_in_use_it) = decide (e.1 ≠ tx.getHash txn.tid) := by
  intro e he
  have hk_inj := List.inj_on_of_nodup_map h.keys_nodup
  have hit : ((s.running_list.map nodeOf).map Prod.fst).Nodup := by
    rw [h.pairing]
    exact h.its_nodup
  rw [List.map_map] at hit
  have hit_inj := List.inj_on_of_nodup_map hit
  by_cases hk : e.1 = tx.getHash txn.tid
  · have : e = (tx.getHash txn.tid, txn) := hk_inj he hm hk
    subst this
    simp [nodeOf]
  · have hne : (nodeOf e).1 ≠ txn.snapshot_in_use_it := by
      intro heq
      have : e = (tx.getHash txn.tid, txn) := hit_inj he hm heq
      exact hk (by rw [this])
    simp [hk, hne]

theorem deregister_snapshots {tx : Tx} {s : TransactionLog} {issued : List MergeTreeTransaction}
    (h : Inv tx s issued) {txn : MergeTreeTransaction}
    (hm : (tx.getHash txn.tid, txn) ∈ s.running_list) :
    (deregister tx s txn).running_list.map nodeOf = (deregister tx s txn).snapshots_in_use := by
  simp only [deregister, umap_erase, list_erase]
  rw [← h.pairing, List.filter_map]
  congr 1
  apply List.filter_congr
  intro e he
  exact (key_ne_iff_it_ne h hm e he).symm

theorem inv_deregister {tx : Tx} (hwf : tx.WF) {s : TransactionLog}
    {issued : List MergeTreeTransaction} (h : Inv tx s issued) {txn : MergeTreeTransaction}
    (ht : txn ∈ issued) (hr : (umap_find s.running_list (tx.getHash txn.tid)).isSome) :
    Inv tx (deregister tx s txn) issued where
  keys := by
    intro e he
    simp only [deregister, umap_erase, List.mem_filter] at he
    exact h.keys e he.1
  keys_nodup := by
    simp only [deregister, umap_erase]
    exact h.keys_nodup.sublist ((List.filter_sublist _).map _)
  pairing := deregister_snapshots h (running_of_issued hwf h ht hr)
  its_nodup := by
    simp only [deregister, list_erase]
    exact h.its_nodup.sublist ((List.filter_sublist _).map _)
  its_lt := by
    intro n hn
    simp only [deregister, list_erase, List.mem_filter] at hn
    exact h.its_lt n hn.1
  issued_ltid := h.issued_ltid
  issued_inj := h.issued_inj
  ltid_ge := h.ltid_ge
  sorted := by
    simp only [deregister, list_erase]
    exact h.sorted.sublist ((List.filter_sublist _).map _)
  snap_le := by
    intro n hn
    simp only [deregister, list_erase, List.mem_filter] at hn
    exact h.snap_le n hn.1
  latest_le := h.latest_le
  latest_ge := h.latest_ge
  csn_le := h.csn_le
  csn_keys := h.csn_keys

theorem notBoth_register {tx : Tx} (hwf : tx.WF) {s : TransactionLog}
    {issued : List MergeTreeTransaction} (h : Inv tx s issued) (hn : NotBoth s) :
    NotBoth (register tx s) := by
  intro e he
  simp only [register, List.mem_append, List.mem_singleton] at he
  rcases he with he | he
  · exact hn e he
  · subst he
    show umap_find s.tid_to_csn (tx.getHash (newTxn tx s).tid) = none
    rw [umap_find_none_iff]
    intro c hc heq
    obtain ⟨t, ht, hte⟩ := h.csn_keys c hc
    exact newTxn_fresh h t ht (hwf.hash_inj (hte.symm.trans heq))

theorem notBoth_deregister {tx : Tx} {s : TransactionLog} (hn : NotBoth s)
    (txn : MergeTreeTransaction) : NotBoth (deregister tx s txn) := by
  intro e he
  simp only [deregister, umap_erase, List.mem_filter] at he
  exact hn e he.1

theorem notBoth_commitPoint {tx : Tx} {s : TransactionLog} (hn : NotBoth s)
    {txn : MergeTreeTransaction}
    (ha : umap_find s.running_list (tx.getHash txn.tid) = none) :
    NotBoth (commitPoint tx s txn) := by
  intro e he
  have hne : tx.getHash txn.tid ≠ e.1 := fun heq => (umap_find_none_iff.1 ha) e he heq.symm
  show umap_find (s.tid_to_csn ++ [(tx.getHash txn.tid, 1 + s.csn_counter)]) e.1 = none
  rw [umap_find_append_ne _ _ hne]
  exact hn e he

theorem notBoth_commit {tx : Tx} {s : TransactionLog} (hn : NotBoth s)
    (txn : MergeTreeTransaction) : NotBoth (deregister tx (commitPoint tx s txn) txn) := by
  intro e he
  simp only [deregister, commitPoint, umap_erase, List.mem_filter, decide_eq_true_eq] at he
  show umap_find (s.tid_to_csn ++ [(tx.getHash txn.tid, 1 + s.csn_counter)]) e.1 = none
  rw [umap_find_append_ne _ _ (Ne.symm he.2)]
  exact hn e he.1

theorem writeCSNs_snoc (trace : List Event) (e : Event) :
    writeCSNs (trace ++ [e]) = writeCSNs trace ++ (e.writeCSN).toList := by
  simp only [writeCSNs, List.filterMap_append]
  cases h : e.writeCSN <;> simp [List.filterMap, h]

theorem TraceInv.mono {tx : Tx} {s s1 : TransactionLog} {issued issued1 : List MergeTreeTransaction}
    {trace : List Event} (h : TraceInv tx s issued trace)
    (hmap : ∀ k c, umap_find s.tid_to_csn k = some c → umap_find s1.tid_to_csn k = some c)
    (hlatest : s.latest_snapshot ≤ s1.latest_snapshot) (hiss : ∀ t ∈ issued, t ∈ issued1) :
    TraceInv tx s1 issued1 trace where
  commits := fun t c hm => ⟨hmap _ _ (h.commits t c hm).1, hiss t (h.commits t c hm).2⟩
  increasing := h.increasing
  bounded := fun c hc => Nat.le_trans (h.bounded c hc) hlatest

theorem TraceInv.snoc_other {tx : Tx} {s : TransactionLog} {issued : List MergeTreeTransaction}
    {trace : List Event} (h : TraceInv tx s issued trace) (e : Event)
    (he : e.writeCSN = none) : TraceInv tx s issued (trace ++ [e]) where
  commits := by
    intro t c hm
    simp only [List.mem_append, List.mem_singleton] at hm
    rcases hm with hm | hm
    · exact h.commits t c hm
    · rw [← hm] at he
      simp [Event.writeCSN] at he
  increasing := by
    rw [writeCSNs_snoc, he]
    simpa using h.increasing
  bounded := by
    rw [writeCSNs_snoc, he]
    simpa using h.bounded

/-- A call that is not a successful write commit and leaves the committed-TID
map and `latest_snapshot` alone keeps the trace invariant. -/
theorem TraceInv.other {tx : Tx} {s : TransactionLog} {issued : List MergeTreeTransaction}
    {trace : List Event} (h : TraceInv tx s issued trace) (s1 : TransactionLog)
    (issued1 : List MergeTreeTransaction) (e : Event) (he : e.writeCSN = none)
    (hmap : s1.tid_to_csn = s.tid_to_csn) (hlatest : s1.latest_snapshot = s.latest_snapshot)
    (hiss : ∀ t ∈ issued, t ∈ issued1) : TraceInv tx s1 issued1 (trace ++ [e]) :=
  (h.mono (fun _ _ hk => by rw [hmap]; exact hk) (Nat.le_of_eq hlatest.symm) hiss).snoc_other e he

theorem traceInv_commit {tx : Tx} {s : TransactionLog} {issued : List MergeTreeTransaction}
    {trace : List Event} (hi : Inv tx s issued) (h : TraceInv tx s issued trace)
    {txn : MergeTreeTransaction} (ht : txn ∈ issued)
    (ha : umap_find s.tid_to_csn (tx.getHash txn.tid) = none) :
    TraceInv tx (commitPoint tx s txn) issued
      (trace ++ [Event.committed txn false (1 + s.csn_counter)]) where
  commits := by
    intro t c hm
    simp only [List.mem_append, List.mem_singleton] at hm
    rcases hm with hm | hm
    · exact ⟨umap_find_append_some _ (h.commits t c hm).1, (h.commits t c hm).2⟩
    · cases hm
      exact ⟨umap_find_append_new _ ha, ht⟩
  increasing := by
    rw [writeCSNs_snoc]
    simp only [Event.writeCSN, Option.toList]
    rw [List.pairwise_append]
    refine ⟨h.increasing, by simp, ?_⟩
    intro a ha1 b hb
    simp only [List.mem_singleton] at hb
    subst hb
    have h1 : a ≤ s.csn_counter := Nat.le_trans (h.bounded a ha1) hi.latest_le
    rw [Nat.add_comm]
    exact Nat.lt_succ_of_le h1
  bounded := by
    intro c hc
    rw [writeCSNs_snoc] at hc
    simp only [Event.writeCSN, Option.toList, List.mem_append, List.mem_singleton] at hc
    rcases hc with hc | hc
    · exact Nat.le_trans (h.bounded c hc) (Nat.le_trans hi.latest_le (Nat.le_add_left _ _))
    · subst hc
      exact Nat.le_refl _

/-! ## The invariant holds in every reachable world -/

theorem good_init (tx : Tx) : Good tx (World.init tx) := by
  refine ⟨inv_init tx, ?_, ?_, ?_, ?_⟩
  · intro e he
    simp [World.init, TransactionLog.init] at he
  · intro t c hm
    simp [World.init] at hm
  · simp [World.init, writeCSNs]
  · simp [World.init, writeCSNs]

theorem good_begin {tx : Tx} (hwf : tx.WF) {w w1 : World} (hg : Good tx w)
    (h : step tx w .begin = some w1) : Good tx w1 := by
  obtain ⟨hi, hn, ht⟩ := hg
  unfold step at h
  rw [beginTransaction_eq] at h
  by_cases hc : (umap_find w.log.running_list (tx.getHash (newTxn tx w.log).tid)).isSome = true
  · rw [if_pos hc] at h
    simp only [Option.some.injEq] at h
    subst h
    exact ⟨inv_bump_local_tid hi, hn, ht.other _ _ _ rfl rfl rfl (fun _ ht1 => ht1)⟩
  · rw [if_neg hc] at h
    simp only [Option.some.injEq] at h
    subst h
    have hnone : umap_find w.log.running_list (tx.getHash (newTxn tx w.log).tid) = none := by
      simpa using hc
    exact ⟨inv_register hi hnone, notBoth_register hwf hi hn,
      ht.other _ _ _ rfl rfl rfl (fun _ ht1 => List.mem_append_left _ ht1)⟩

theorem good_commit {tx : Tx} (hwf : tx.WF) {w w1 : World} (hg : Good tx w) (i : Nat)
    (hooks : CommitHooks) (h : step tx w (.commit i hooks) = some w1) : Good tx w1 := by
  obtain ⟨hi, hn, ht⟩ := hg
  unfold step at h
  cases hidx : w.issued[i]? with
  | none => simp [hidx] at h
  | some txn =>
    have hmem : txn ∈ w.issued := List.getElem?_mem hidx
    simp only [hidx] at h
    cases hb : hooks.beforeCommit with
    | some e =>
      rw [commitTransaction_failed_hook tx w.log txn hooks e hb] at h
      simp only [Option.some.injEq] at h
      subst h
      exact ⟨hi, hn, ht.other _ _ _ rfl rfl rfl (fun _ ht1 => ht1)⟩
    | none =>
      cases hr : hooks.isReadOnly with
      | true =>
        rw [commitTransaction_readonly tx w.log txn hooks hb hr] at h
        by_cases hc : (umap_find w.log.running_list (tx.getHash txn.tid)).isSome = true
        · rw [if_pos hc] at h
          simp only [Option.some.injEq] at h
          subst h
          exact ⟨inv_deregister hwf hi hmem hc, notBoth_deregister hn txn,
            ht.other _ _ _ (by rw [hr]; rfl) rfl rfl (fun _ ht1 => ht1)⟩
        · rw [if_neg hc] at h
          simp only [Option.some.injEq] at h
          subst h
          exact ⟨hi, hn, ht.other _ _ _ rfl rfl rfl (fun _ ht1 => ht1)⟩
      | false =>
        rw [commitTransaction_write tx w.log txn hooks hb hr] at h
        by_cases hm : (umap_find w.log.tid_to_csn (tx.getHash txn.tid)).isSome = true
        · rw [if_pos hm] at h
          simp only [Option.some.injEq] at h
          subst h
          exact ⟨inv_bump_csn hi, hn, ht.other _ _ _ rfl rfl rfl (fun _ ht1 => ht1)⟩
        · rw [if_neg hm] at h
          have hnone : umap_find w.log.tid_to_csn (tx.getHash txn.tid) = none := by
            simpa using hm
          by_cases hc : (umap_find w.log.running_list (tx.getHash txn.tid)).isSome = true
          · rw [if_pos hc] at h
            simp only [Option.some.injEq] at h
            subst h
            refine ⟨inv_deregister hwf (inv_commitPoint hi hmem) hmem hc, notBoth_commit hn txn, ?_⟩
            rw [hr]
            exact (traceInv_commit hi ht hmem hnone).mono (fun _ _ hk => hk) (Nat.le_refl _)
              (fun _ ht1 => ht1)
          · rw [if_neg hc] at h
            simp only [Option.some.injEq] at h
            subst h
            have hcn : umap_find w.log.running_list (tx.getHash txn.tid) = none := by
              simpa using hc
            exact ⟨inv_commitPoint hi hmem, notBoth_commitPoint hn hcn,
              (ht.mono (fun _ _ hk => umap_find_append_some _ hk)
                (Nat.le_trans hi.latest_le (Nat.le_add_left _ _)) (fun _ ht1 => ht1)).snoc_other
                _ rfl⟩

theorem good_rollback {tx : Tx} (hwf : tx.WF) {w w1 : World} (hg : Good tx w) (i : Nat)
    (need_rollback : Bool) (h : step tx w (.rollback i need_rollback) = some w1) :
    Good tx w1 := by
  obtain ⟨hi, hn, ht⟩ := hg
  unfold step at h
  cases hidx : w.issued[i]? with
  | none => simp [hidx] at h
  | some txn =>
    have hmem : txn ∈ w.issued := List.getElem?_mem hidx
    simp only [hidx] at h
    rw [rollbackTransaction_eq] at h
    cases need_rollback with
    | false =>
      simp only [Bool.false_eq_true, if_false, Option.some.injEq] at h
      subst h
      exact ⟨hi, hn, ht.other _ _ _ rfl rfl rfl (fun _ ht1 => ht1)⟩
    | true =>
      by_cases hc : (umap_find w.log.running_list (tx.getHash txn.tid)).isSome = true
      · simp only [if_true, if_pos hc, Option.some.injEq] at h
        subst h
        exact ⟨inv_deregister hwf hi hmem hc, notBoth_deregister hn txn,
          ht.other _ _ _ rfl rfl rfl (fun _ ht1 => ht1)⟩
      · simp only [if_true, if_neg hc] at h
        exact absurd h (by simp)

theorem good_step {tx : Tx} (hwf : tx.WF) {w w1 : World} (hg : Good tx w) (c : Call)
    (h : step tx w c = some w1) : Good tx w1 := by
  cases c with
  | begin => exact good_begin hwf hg h
  | commit i hooks => exact good_commit hwf hg i hooks h
  | rollback i need_rollback => exact good_rollback hwf hg i need_rollback h

theorem good_run {tx : Tx} (hwf : tx.WF) (calls : List Call) :
    ∀ {w w1 : World}, Good tx w → run tx w calls = some w1 → Good tx w1 := by
  induction calls with
  | nil =>
    intro w w1 hg h
    simp only [run, Option.some.injEq] at h
    subst h
    exact hg
  | cons c cs ih =>
    intro w w1 hg h
    simp only [run] at h
    cases hs : step tx w c with
    | none => simp [hs] at h
    | some w2 =>
      simp only [hs, Option.some_bind] at h
      exact ih (good_step hwf hg c hs) h

theorem good_of_reachable {tx : Tx} (hwf : tx.WF) {w : World} (h : Reachable tx w) :
    Good tx w := by
  obtain ⟨calls, hc⟩ := h
  exact good_run hwf calls (good_init tx) hc

/-! ## What one call does to a world -/

theorem step_begin_inv {tx : Tx} {w w1 : World} (h : step tx w .begin = some w1) :
    w1.log = (beginTransaction tx w.log).1 ∧
      ((w1.log = register tx w.log ∧ w1.issued = w.issued ++ [newTxn tx w.log] ∧
          w1.trace = w.trace ++ [.began (newTxn tx w.log)]) ∨
        (w1.log = { w.log with local_tid_counter := w.log.local_tid_counter + 1 } ∧
          w1.issued = w.issued ∧ w1.trace = w.trace ++ [.beginFailed .LOGICAL_ERROR])) := by
  unfold step at h
  rw [beginTransaction_eq] at h ⊢
  by_cases hc : (umap_find w.log.running_list (tx.getHash (newTxn tx w.log).tid)).isSome = true
  · rw [if_pos hc] at h ⊢
    simp only [Option.some.injEq] at h
    subst h
    exact ⟨rfl, Or.inr ⟨rfl, rfl, rfl⟩⟩
  · rw [if_neg hc] at h ⊢
    simp only [Option.some.injEq] at h
    subst h
    exact ⟨rfl, Or.inl ⟨rfl, rfl, rfl⟩⟩

theorem step_commit_inv {tx : Tx} {w w1 : World} {i : Nat} {hooks : CommitHooks}
    (h : step tx w (.commit i hooks) = some w1) :
    ∃ txn, w.issued[i]? = some txn ∧ w1.log = (commitTransaction tx w.log txn hooks).1 ∧
      w1.issued = w.issued ∧
      ((∃ c, (commitTransaction tx w.log txn hooks).2 = .ok c ∧
          w1.trace = w.trace ++ [.committed txn hooks.isReadOnly c]) ∨
        (∃ e, (commitTransaction tx w.log txn hooks).2 = .error e ∧
          w1.trace = w.trace ++ [.commitFailed txn e])) := by
  unfold step at h
  cases hidx : w.issued[i]? with
  | none => simp [hidx] at h
  | some txn =>
    simp only [hidx] at h
    refine ⟨txn, rfl, ?_⟩
    cases hc : commitTransaction tx w.log txn hooks with
    | mk s r =>
      rw [hc] at h
      cases r with
      | ok c =>
        simp only [Option.some.injEq] at h
        subst h
        exact ⟨rfl, rfl, Or.inl ⟨c, rfl, rfl⟩⟩
      | error e =>
        simp only [Option.some.injEq] at h
        subst h
        exact ⟨rfl, rfl, Or.inr ⟨e, rfl, rfl⟩⟩

theorem step_rollback_inv {tx : Tx} {w w1 : World} {i : Nat} {need_rollback : Bool}
    (h : step tx w (.rollback i need_rollback) = some w1) :
    ∃ txn, w.issued[i]? = some txn ∧
      rollbackTransaction tx w.log txn need_rollback = .returned w1.log ∧
      w1.issued = w.issued ∧ w1.trace = w.trace ++ [.rolledBack txn need_rollback] := by
  unfold step at h
  cases hidx : w.issued[i]? with
  | none => simp [hidx] at h
  | some txn =>
    simp only [hidx] at h
    refine ⟨txn, rfl, ?_⟩
    cases hc : rollbackTransaction tx w.log txn need_rollback with
    | returned s =>
      rw [hc] at h
      simp only [Option.some.injEq] at h
      subst h
      exact ⟨rfl, rfl, rfl⟩
    | aborted s =>
      rw [hc] at h
      simp at h

/-- What `commitTransaction` does to the counters, and what a successful
commit of a write transaction returns. -/
theorem commitTransaction_counters (tx : Tx) (s : TransactionLog) (txn : MergeTreeTransaction)
    (hooks : CommitHooks) :
    (commitTransaction tx s txn hooks).1.local_tid_counter = s.local_tid_counter ∧
      (commitTransaction tx s txn hooks).1.csn_counter =
        s.csn_counter + (Call.commit 0 hooks).reachesCommitPoint.toNat ∧
      ∀ c, (commitTransaction tx s txn hooks).2 = .ok c → hooks.isReadOnly = false →
        c = s.csn_counter + 1 ∧ (Call.commit 0 hooks).reachesCommitPoint = true := by
  cases hb : hooks.beforeCommit with
  | some e =>
    have hreach : (Call.commit 0 hooks).reachesCommitPoint = false := by
      simp [Call.reachesCommitPoint, hb]
    rw [commitTransaction_failed_hook tx s txn hooks e hb, hreach]
    exact ⟨rfl, rfl, fun c hc _ => by simp at hc⟩
  | none =>
    cases hr : hooks.isReadOnly with
    | true =>
      have hreach : (Call.commit 0 hooks).reachesCommitPoint = false := by
        simp [Call.reachesCommitPoint, hr]
      rw [commitTransaction_readonly tx s txn hooks hb hr, hreach]
      by_cases h1 : (umap_find s.running_list (tx.getHash txn.tid)).isSome = true
      · rw [if_pos h1]
        exact ⟨rfl, rfl, fun c _ hc => by simp at hc⟩
      · rw [if_neg h1]
        exact ⟨rfl, rfl, fun c _ hc => by simp at hc⟩
    | false =>
      have hreach : (Call.commit 0 hooks).reachesCommitPoint = true := by
        simp [Call.reachesCommitPoint, hb, hr]
      rw [commitTransaction_write tx s txn hooks hb hr, hreach]
      by_cases h1 : (umap_find s.tid_to_csn (tx.getHash txn.tid)).isSome = true
      · rw [if_pos h1]
        exact ⟨rfl, rfl, fun c hc _ => by simp at hc⟩
      · rw [if_neg h1]
        by_cases h2 : (umap_find s.running_list (tx.getHash txn.tid)).isSome = true
        · rw [if_pos h2]
          refine ⟨rfl, rfl, fun c hc _ => ?_⟩
          simp only [Except.ok.injEq] at hc
          exact ⟨by rw [← hc, Nat.add_comm], rfl⟩
        · rw [if_neg h2]
          exact ⟨rfl, rfl, fun c hc _ => by simp at hc⟩

theorem rollbackTransaction_frame (tx : Tx) (s : TransactionLog) (txn : MergeTreeTransaction)
    (need_rollback : Bool) :
    (rollbackTransaction tx s txn need_rollback).state.local_tid_counter = s.local_tid_counter ∧
      (rollbackTransaction tx s txn need_rollback).state.csn_counter = s.csn_counter ∧
      (rollbackTransaction tx s txn need_rollback).state.latest_snapshot = s.latest_snapshot ∧
      (rollbackTransaction tx s txn need_rollback).state.tid_to_csn = s.tid_to_csn := by
  rw [rollbackTransaction_eq]
  split_ifs <;> exact ⟨rfl, rfl, rfl, rfl⟩

/-! ## The counters along a call sequence -/

theorem counters_init (tx : Tx) : Counters tx (World.init tx) where
  ltid_ge := Nat.le_refl _
  issued_gt := by simp [World.init]
  issued_sorted := by simp [World.init]
  csn_ge := Nat.le_refl _
  write_gt := by simp [World.init, writeCSNs]

theorem writeCSNs_snoc_other (trace : List Event) (e : Event) (he : e.writeCSN = none) :
    writeCSNs (trace ++ [e]) = writeCSNs trace := by
  rw [writeCSNs_snoc, he]
  simp

theorem counters_begin {tx : Tx} {w w1 : World} (h : Counters tx w)
    (hs : step tx w .begin = some w1) : Counters tx w1 := by
  obtain ⟨-, ⟨hl, hi, ht⟩ | ⟨hl, hi, ht⟩⟩ := step_begin_inv hs
  · have hnew : w.log.local_tid_counter < (newTxn tx w.log).tid.local_tid := by
      show w.log.local_tid_counter < 1 + w.log.local_tid_counter
      rw [Nat.add_comm]
      exact Nat.lt_succ_self _
    refine ⟨?_, ?_, ?_, ?_, ?_⟩
    · rw [hl]
      exact Nat.le_succ_of_le h.ltid_ge
    · rw [hl, hi]
      intro t htm
      rcases List.mem_append.1 htm with htm | htm
      · exact ⟨(h.issued_gt t htm).1, Nat.le_succ_of_le (h.issued_gt t htm).2⟩
      · rw [List.mem_singleton.1 htm]
        exact ⟨Nat.lt_of_le_of_lt h.ltid_ge hnew, Nat.le_of_eq (Nat.add_comm _ _)⟩
    · rw [hi, List.map_append, List.pairwise_append]
      refine ⟨h.issued_sorted, by simp, ?_⟩
      intro a ha b hb
      simp only [List.map_cons, List.map_nil, List.mem_singleton] at hb
      obtain ⟨t, htm, hta⟩ := List.mem_map.1 ha
      rw [hb, ← hta]
      exact Nat.lt_of_le_of_lt (h.issued_gt t htm).2 hnew
    · rw [hl]
      exact h.csn_ge
    · rw [ht, writeCSNs_snoc_other]
      · exact h.write_gt
      · rfl
  · refine ⟨?_, ?_, ?_, ?_, ?_⟩
    · rw [hl]
      exact Nat.le_succ_of_le h.ltid_ge
    · rw [hl, hi]
      intro t htm
      exact ⟨(h.issued_gt t htm).1, Nat.le_succ_of_le (h.issued_gt t htm).2⟩
    · rw [hi]
      exact h.issued_sorted
    · rw [hl]
      exact h.csn_ge
    · rw [ht, writeCSNs_snoc_other]
      · exact h.write_gt
      · rfl

theorem counters_commit {tx : Tx} {w w1 : World} (h : Counters tx w) {i : Nat}
    {hooks : CommitHooks} (hs : step tx w (.commit i hooks) = some w1) : Counters tx w1 := by
  obtain ⟨txn, -, hl, hi, ht⟩ := step_commit_inv hs
  obtain ⟨hc1, hc2, hc3⟩ := commitTransaction_counters tx w.log txn hooks
  refine ⟨?_, ?_, ?_, ?_, ?_⟩
  · rw [hl, hc1]
    exact h.ltid_ge
  · rw [hl, hi, hc1]
    exact h.issued_gt
  · rw [hi]
    exact h.issued_sorted
  · rw [hl, hc2]
    exact Nat.le_trans h.csn_ge (Nat.le_add_right _ _)
  · rcases ht with ⟨c, hok, ht⟩ | ⟨e, -, ht⟩
    · cases hr : hooks.isReadOnly with
      | true =>
        rw [ht, hr, writeCSNs_snoc_other]
        · exact h.write_gt
        · rfl
      | false =>
        rw [ht, hr, writeCSNs_snoc]
        intro c1 hc1m
        simp only [Event.writeCSN, Option.toList, List.mem_append, List.mem_singleton] at hc1m
        rcases hc1m with hc1m | hc1m
        · exact h.write_gt c1 hc1m
        · rw [hc1m, (hc3 c hok hr).1]
          exact Nat.lt_succ_of_le h.csn_ge
    · rw [ht, writeCSNs_snoc_other]
      · exact h.write_gt
      · rfl

theorem counters_rollback {tx : Tx} {w w1 : World} (h : Counters tx w) {i : Nat}
    {need_rollback : Bool} (hs : step tx w (.rollback i need_rollback) = some w1) :
    Counters tx w1 := by
  obtain ⟨txn, -, hl, hi, ht⟩ := step_rollback_inv hs
  have hf := rollbackTransaction_frame tx w.log txn need_rollback
  rw [hl] at hf
  obtain ⟨hf1, hf2, -, -⟩ := hf
  simp only [RollbackOutcome.state] at hf1 hf2
  refine ⟨?_, ?_, ?_, ?_, ?_⟩
  · rw [hf1]
    exact h.ltid_ge
  · rw [hi, hf1]
    exact h.issued_gt
  · rw [hi]
    exact h.issued_sorted
  · rw [hf2]
    exact h.csn_ge
  · rw [ht, writeCSNs_snoc_other]
    · exact h.write_gt
    · rfl

theorem counters_run {tx : Tx} (calls : List Call) :
    ∀ {w w1 : World}, Counters tx w → run tx w calls = some w1 → Counters tx w1 := by
  induction calls with
  | nil =>
    intro w w1 hg h
    simp only [run, Option.some.injEq] at h
    subst h
    exact hg
  | cons c cs ih =>
    intro w w1 hg h
    simp only [run] at h
    cases hs : step tx w c with
    | none => simp [hs] at h
    | some w2 =>
      simp only [hs, Option.some_bind] at h
      cases c with
      | begin => exact ih (counters_begin hg hs) h
      | commit i hooks => exact ih (counters_commit hg hs) h
      | rollback i need_rollback => exact ih (counters_rollback hg hs) h

/-- Every call moves the local-TID counter by one when it is a
`beginTransaction` and the CSN counter by one when it reaches the commit
point, and not otherwise. -/
theorem counts_step {tx : Tx} {w w1 : World} (c : Call) (hs : step tx w c = some w1) :
    w1.log.local_tid_counter = w.log.local_tid_counter + beginCalls [c] ∧
      w1.log.csn_counter = w.log.csn_counter + commitPointCalls [c] := by
  cases c with
  | begin =>
    obtain ⟨-, ⟨hl, -, -⟩ | ⟨hl, -, -⟩⟩ := step_begin_inv hs <;>
    · rw [hl]
      exact ⟨rfl, rfl⟩
  | commit i hooks =>
    obtain ⟨txn, -, hl, -, -⟩ := step_commit_inv hs
    obtain ⟨hc1, hc2, -⟩ := commitTransaction_counters tx w.log txn hooks
    rw [hl, hc1, hc2]
    exact ⟨rfl, rfl⟩
  | rollback i need_rollback =>
    obtain ⟨txn, -, hl, -, -⟩ := step_rollback_inv hs
    have hf := rollbackTransaction_frame tx w.log txn need_rollback
    rw [hl] at hf
    exact ⟨hf.1, hf.2.1⟩

theorem counts_run {tx : Tx} (calls : List Call) :
    ∀ {w w1 : World}, run tx w calls = some w1 →
      w1.log.local_tid_counter = w.log.local_tid_counter + beginCalls calls ∧
        w1.log.csn_counter = w.log.csn_counter + commitPointCalls calls := by
  induction calls with
  | nil =>
    intro w w1 h
    simp only [run, Option.some.injEq] at h
    subst h
    exact ⟨rfl, rfl⟩
  | cons c cs ih =>
    intro w w1 h
    simp only [run] at h
    cases hs : step tx w c with
    | none => simp [hs] at h
    | some w2 =>
      simp only [hs, Option.some_bind] at h
      obtain ⟨h1, h2⟩ := ih h
      obtain ⟨h3, h4⟩ := counts_step c hs
      have hb : beginCalls (c :: cs) = beginCalls [c] + beginCalls cs := by
        cases c <;> simp [beginCalls, Nat.add_comm]
      have hp : commitPointCalls (c :: cs) = commitPointCalls [c] + commitPointCalls cs := by
        simp [commitPointCalls]
      rw [h1, h2, h3, h4, hb, hp]
      exact ⟨Nat.add_assoc _ _ _, Nat.add_assoc _ _ _⟩

/-! ## The committed-TID map along a call sequence -/

theorem beginTransaction_frame (tx : Tx) (s : TransactionLog) :
    (beginTransaction tx s).1.tid_to_csn = s.tid_to_csn ∧
      (beginTransaction tx s).1.local_tid_counter = s.local_tid_counter + 1 ∧
      ∀ s1 txn, beginTransaction tx s = (s1, .ok txn) → txn = newTxn tx s := by
  rw [beginTransaction_eq]
  by_cases hc : (umap_find s.running_list (tx.getHash (newTxn tx s).tid)).isSome = true
  · rw [if_pos hc]
    exact ⟨rfl, rfl, fun s1 txn h => by simp at h⟩
  · rw [if_neg hc]
    refine ⟨rfl, rfl, fun s1 txn h => ?_⟩
    simp only [Prod.mk.injEq, Except.ok.injEq] at h
    exact h.2.symm

theorem commitTransaction_keeps (tx : Tx) (s : TransactionLog) (txn : MergeTreeTransaction)
    (hooks : CommitHooks) {k : TIDHash} {c : CSN} (hm : umap_find s.tid_to_csn k = some c) :
    umap_find (commitTransaction tx s txn hooks).1.tid_to_csn k = some c := by
  cases hb : hooks.beforeCommit with
  | some e =>
    rw [commitTransaction_failed_hook tx s txn hooks e hb]
    exact hm
  | none =>
    cases hr : hooks.isReadOnly with
    | true =>
      rw [commitTransaction_readonly tx s txn hooks hb hr]
      split_ifs <;> exact hm
    | false =>
      rw [commitTransaction_write tx s txn hooks hb hr]
      split_ifs
      · exact hm
      · exact umap_find_append_some _ hm
      · exact umap_find_append_some _ hm

theorem map_kept_step {tx : Tx} {w w1 : World} (call : Call) (hs : step tx w call = some w1)
    {k : TIDHash} {c : CSN} (hm : umap_find w.log.tid_to_csn k = some c) :
    umap_find w1.log.tid_to_csn k = some c := by
  cases call with
  | begin =>
    rw [(step_begin_inv hs).1, (beginTransaction_frame tx w.log).1]
    exact hm
  | commit i hooks =>
    obtain ⟨txn, -, hl, -, -⟩ := step_commit_inv hs
    rw [hl]
    exact commitTransaction_keeps tx w.log txn hooks hm
  | rollback i need_rollback =>
    obtain ⟨txn, -, hl, -, -⟩ := step_rollback_inv hs
    have hf := (rollbackTransaction_frame tx w.log txn need_rollback).2.2.2
    rw [hl] at hf
    simp only [RollbackOutcome.state] at hf
    rw [hf]
    exact hm

theorem map_kept_run {tx : Tx} (calls : List Call) {k : TIDHash} {c : CSN} :
    ∀ {w w1 : World}, run tx w calls = some w1 → umap_find w.log.tid_to_csn k = some c →
      umap_find w1.log.tid_to_csn k = some c := by
  induction calls with
  | nil =>
    intro w w1 h hm
    simp only [run, Option.some.injEq] at h
    subst h
    exact hm
  | cons call cs ih =>
    intro w w1 h hm
    simp only [run] at h
    cases hs : step tx w call with
    | none => simp [hs] at h
    | some w2 =>
      simp only [hs, Option.some_bind] at h
      exact ih h (map_kept_step call hs hm)

theorem getCSN_congr (tx : Tx) {s s1 : TransactionLog} {k : TIDHash}
    (h : umap_find s1.tid_to_csn k = umap_find s.tid_to_csn k) :
    getCSN tx s1 k = getCSN tx s k := by
  unfold getCSN
  rw [h]

/-! ## The sample parameters -/

theorem sample_wf : Tx.sample.WF where
  hash_inj := by
    intro a b h
    simp only [Tx.sample, add_left_inj, Nat.pair_eq_pair] at h
    obtain ⟨a1, a2, a3⟩ := a
    obtain ⟨b1, b2, b3⟩ := b
    simp only at h
    obtain ⟨h1, h2, h3⟩ := h
    subst h1 h2 h3
    rfl
  hash_ne_zero := by
    intro t
    simp [Tx.sample]
  empty_reserved := by decide
  prehistoric_reserved := by decide

theorem sample_reachable : Reachable Tx.sample World.sample :=
  ⟨sampleCalls, by decide⟩

theorem sampleTwo_reachable : Reachable Tx.sample World.sampleTwo :=
  ⟨[.begin, .begin], by decide⟩

theorem sampleCommits_reachable : Reachable Tx.sample World.sampleCommits :=
  ⟨[.begin, .begin, .commit 0 ⟨none, false⟩, .commit 1 ⟨none, false⟩], by decide⟩

theorem sampleMixed_reachable : Reachable Tx.sample World.sampleMixed :=
  ⟨[.begin, .begin, .commit 0 ⟨none, false⟩, .commit 1 ⟨none, true⟩], by decide⟩

theorem sampleRecommit_run :
    run Tx.sample (World.init Tx.sample) recommitCalls = some World.sampleRecommit := by
  decide

theorem sample_run :
    run Tx.sample (World.init Tx.sample) sampleCalls = some World.sample := by
  decide

/-! ## Lemmas for the claims -/

/-- A handle of this manager never hashes to a sentinel, so `getCSN` on it is
a plain lookup in the committed-TID map. -/
theorem getCSN_issued {tx : Tx} (hwf : tx.WF) {s : TransactionLog}
    {issued : List MergeTreeTransaction} (h : Inv tx s issued) {txn : MergeTreeTransaction}
    (ht : txn ∈ issued) (s1 : TransactionLog) :
    getCSN tx s1 (tx.getHash txn.tid) =
      some ((umap_find s1.tid_to_csn (tx.getHash txn.tid)).getD tx.UnknownCSN) := by
  have hlt := (h.issued_ltid txn ht).1
  have h0 : tx.getHash txn.tid ≠ 0 := hwf.hash_ne_zero _
  have h1 : tx.getHash txn.tid ≠ tx.getHash tx.EmptyTID := by
    intro heq
    have := hwf.hash_inj heq
    rw [this] at hlt
    exact Nat.lt_irrefl _ (Nat.lt_of_lt_of_le hlt hwf.empty_reserved)
  have h2 : tx.getHash txn.tid ≠ tx.getHash tx.PrehistoricTID := by
    intro heq
    have := hwf.hash_inj heq
    rw [this] at hlt
    exact Nat.lt_irrefl _ (Nat.lt_of_lt_of_le hlt hwf.prehistoric_reserved)
  unfold getCSN
  rw [if_neg h0, if_neg h1, if_neg h2]
  cases umap_find s1.tid_to_csn (tx.getHash txn.tid) <;> rfl

theorem running_mem {tx : Tx} {s : TransactionLog} {txn : MergeTreeTransaction}
    (h : Running tx s txn) : (tx.getHash txn.tid, txn) ∈ s.running_list :=
  umap_find_some_mem h

theorem running_issued {tx : Tx} {s : TransactionLog} {issued : List MergeTreeTransaction}
    (hi : Inv tx s issued) {txn : MergeTreeTransaction} (h : Running tx s txn) :
    txn ∈ issued :=
  (hi.keys _ (running_mem h)).2

theorem oldest_le_of_mem {s : TransactionLog}
    (hs : (s.snapshots_in_use.map Prod.snd).Pairwise (· ≤ ·)) :
    ∀ n ∈ s.snapshots_in_use, getOldestSnapshot s ≤ n.2 := by
  intro n hn
  unfold getOldestSnapshot
  cases hl : s.snapshots_in_use with
  | nil => simp [hl] at hn
  | cons front rest =>
    rw [hl] at hs hn
    simp only [List.map_cons, List.pairwise_cons, List.mem_map] at hs
    rcases List.mem_cons.1 hn with heq | hmem
    · rw [heq]
    · exact hs.1 n.2 ⟨n, hmem, rfl⟩

/-- Erasing a key of a map without duplicate keys takes out the one entry
with that key and keeps the others in place. -/
theorem filter_key_split {β : Type} {m : List (Nat × β)} (hnd : (m.map Prod.fst).Nodup)
    {k : Nat} {v : β} (hm : (k, v) ∈ m) :
    ∃ r1 r2, m = r1 ++ (k, v) :: r2 ∧ m.filter (fun e => decide (e.1 ≠ k)) = r1 ++ r2 := by
  obtain ⟨r1, r2, rfl⟩ := List.append_of_mem hm
  refine ⟨r1, r2, rfl, ?_⟩
  simp only [List.map_append, List.map_cons] at hnd
  rw [List.nodup_append] at hnd
  obtain ⟨-, h2, h3⟩ := hnd
  have hr1 : r1.filter (fun e => decide (e.1 ≠ k)) = r1 := by
    rw [List.filter_eq_self]
    intro a ha
    have : a.1 ≠ k := fun heq =>
      h3 (List.mem_map_of_mem Prod.fst ha) (by rw [heq]; exact List.mem_cons_self _ _)
    simpa using this
  have hr2 : r2.filter (fun e => decide (e.1 ≠ k)) = r2 := by
    rw [List.filter_eq_self]
    intro a ha
    have : a.1 ≠ k := fun heq =>
      (List.nodup_cons.1 h2).1 (by rw [← heq]; exact List.mem_map_of_mem Prod.fst ha)
    simpa using this
  rw [List.filter_append, List.filter_cons, hr1, hr2]
  simp

theorem commit_write_latest {tx : Tx} {s0 s : TransactionLog} {txn0 : MergeTreeTransaction}
    {hooks : CommitHooks} {c : CSN} (hr : hooks.isReadOnly = false)
    (h : commitTransaction tx s0 txn0 hooks = (s, .ok c)) : s.latest_snapshot = c := by
  cases hb : hooks.beforeCommit with
  | some e =>
    rw [commitTransaction_failed_hook tx s0 txn0 hooks e hb] at h
    simp at h
  | none =>
    rw [commitTransaction_write tx s0 txn0 hooks hb hr] at h
    split_ifs at h
    · simp at h
    · simp only [Prod.mk.injEq, Except.ok.injEq] at h
      rw [← h.1, ← h.2]
      rfl
    · simp at h

theorem beginTransaction_init (tx : Tx) :
    beginTransaction tx (TransactionLog.init tx) =
      (register tx (TransactionLog.init tx), .ok (newTxn tx (TransactionLog.init tx))) := by
  rw [beginTransaction_eq]
  rfl

theorem running_nil_of_all_none {s : TransactionLog}
    (h : ∀ k, tryGetRunningTransaction s k = none) : s.running_list = [] := by
  cases hl : s.running_list with
  | nil => rfl
  | cons e rest =>
    have := h e.1
    simp [tryGetRunningTransaction, hl, umap_find] at this

end DB

/-! ## The claims -/

namespace DB

/-- C1: in every state reachable from a fresh manager, `getOldestSnapshot()`
is at most the snapshot of every transaction of the running registry, and it
equals `getLatestSnapshot()` when no transaction is running. -/
theorem oldest_snapshot_bound (tx : Tx) (hwf : tx.WF) (w : World) (h : Reachable tx w) :
    (∀ k txn, tryGetRunningTransaction w.log k = some txn →
        getOldestSnapshot w.log ≤ txn.snapshot) ∧
      ((∀ k, tryGetRunningTransaction w.log k = none) →
        getOldestSnapshot w.log = getLatestSnapshot w.log) := by
  obtain ⟨hi, -, -⟩ := good_of_reachable hwf h
  constructor
  · intro k txn hk
    have hmem : nodeOf (k, txn) ∈ w.log.snapshots_in_use := by
      rw [← hi.pairing]
      exact List.mem_map_of_mem _ (umap_find_some_mem hk)
    exact oldest_le_of_mem hi.sorted _ hmem
  · intro hnone
    have hnil := running_nil_of_all_none hnone
    have hs : w.log.snapshots_in_use = [] := by
      rw [← hi.pairing, hnil]
      rfl
    simp [getOldestSnapshot, hs]

theorem oldest_snapshot_bound_witness :
    Tx.sample.WF ∧ Reachable Tx.sample World.sample ∧
      (∀ k txn, tryGetRunningTransaction World.sample.log k = some txn →
        getOldestSnapshot World.sample.log ≤ txn.snapshot) ∧
      ((∀ k, tryGetRunningTransaction World.sample.log k = none) →
        getOldestSnapshot World.sample.log = getLatestSnapshot World.sample.log) :=
  ⟨sample_wf, sample_reachable,
    oldest_snapshot_bound Tx.sample sample_wf World.sample sample_reachable⟩

/-- C2: committing a running write transaction whose pre-commit hook succeeds
and whose TID hash is not yet in the committed-TID map returns the previous
CSN counter plus one; afterwards `getCSN` of its TID and `getLatestSnapshot()`
give that CSN and `tryGetRunningTransaction` no longer finds it. -/
theorem commit_write_transaction (tx : Tx) (hwf : tx.WF) (w : World) (h : Reachable tx w)
    (txn : MergeTreeTransaction) (hooks : CommitHooks) (hrun : Running tx w.log txn)
    (hb : hooks.beforeCommit = none) (hr : hooks.isReadOnly = false)
    (hnew : umap_find w.log.tid_to_csn (tx.getHash txn.tid) = none) :
    ∃ s1, commitTransaction tx w.log txn hooks = (s1, .ok (w.log.csn_counter + 1)) ∧
      getCSN_tid tx s1 txn.tid = some (w.log.csn_counter + 1) ∧
      getLatestSnapshot s1 = w.log.csn_counter + 1 ∧
      tryGetRunningTransaction s1 (tx.getHash txn.tid) = none := by
  obtain ⟨hi, -, -⟩ := good_of_reachable hwf h
  have hiss := running_issued hi hrun
  have hrs : (umap_find w.log.running_list (tx.getHash txn.tid)).isSome = true := by
    unfold Running tryGetRunningTransaction at hrun
    rw [hrun]
    rfl
  refine ⟨deregister tx (commitPoint tx w.log txn) txn, ?_, ?_, ?_, ?_⟩
  · rw [commitTransaction_write tx w.log txn hooks hb hr, hnew]
    simp only [Option.isSome_none, Bool.false_eq_true, if_false]
    rw [if_pos hrs, Nat.add_comm]
  · unfold getCSN_tid
    rw [getCSN_issued hwf hi hiss]
    have : umap_find (deregister tx (commitPoint tx w.log txn) txn).tid_to_csn
        (tx.getHash txn.tid) = some (1 + w.log.csn_counter) :=
      umap_find_append_new _ hnew
    rw [this, Nat.add_comm]
    rfl
  · show 1 + w.log.csn_counter = w.log.csn_counter + 1
    exact Nat.add_comm _ _
  · exact umap_find_erase_self _ _

theorem commit_write_transaction_witness :
    Tx.sample.WF ∧ Reachable Tx.sample World.sampleTwo ∧
      Running Tx.sample World.sampleTwo.log sampleTxn0 ∧
      ∃ s1, commitTransaction Tx.sample World.sampleTwo.log sampleTxn0 ⟨none, false⟩ =
          (s1, .ok (World.sampleTwo.log.csn_counter + 1)) ∧
        getCSN_tid Tx.sample s1 sampleTxn0.tid = some (World.sampleTwo.log.csn_counter + 1) ∧
        getLatestSnapshot s1 = World.sampleTwo.log.csn_counter + 1 ∧
        tryGetRunningTransaction s1 (Tx.sample.getHash sampleTxn0.tid) = none :=
  ⟨sample_wf, sampleTwo_reachable, by decide,
    commit_write_transaction Tx.sample sample_wf World.sampleTwo sampleTwo_reachable
      sampleTxn0 ⟨none, false⟩ (by decide) rfl rfl (by decide)⟩

/-- C3: committing a running read-only transaction whose pre-commit hook
succeeds returns exactly the snapshot it began with, leaves the CSN counter,
`latest_snapshot` and the committed-TID map as they were, and afterwards
`getCSN` of its TID is `UnknownCSN`. -/
theorem commit_readonly_transaction (tx : Tx) (hwf : tx.WF) (w : World) (h : Reachable tx w)
    (txn : MergeTreeTransaction) (hooks : CommitHooks) (hrun : Running tx w.log txn)
    (hb : hooks.beforeCommit = none) (hr : hooks.isReadOnly = true) :
    ∃ s1, commitTransaction tx w.log txn hooks = (s1, .ok txn.snapshot) ∧
      s1.csn_counter = w.log.csn_counter ∧
      getLatestSnapshot s1 = getLatestSnapshot w.log ∧
      s1.tid_to_csn = w.log.tid_to_csn ∧
      getCSN_tid tx s1 txn.tid = some tx.UnknownCSN := by
  obtain ⟨hi, hn, -⟩ := good_of_reachable hwf h
  have hiss := running_issued hi hrun
  have hrs : (umap_find w.log.running_list (tx.getHash txn.tid)).isSome = true := by
    unfold Running tryGetRunningTransaction at hrun
    rw [hrun]
    rfl
  refine ⟨deregister tx w.log txn, ?_, rfl, rfl, rfl, ?_⟩
  · rw [commitTransaction_readonly tx w.log txn hooks hb hr, if_pos hrs]
  · unfold getCSN_tid
    rw [getCSN_issued hwf hi hiss]
    have : umap_find (deregister tx w.log txn).tid_to_csn (tx.getHash txn.tid) = none :=
      hn _ (running_mem hrun)
    rw [this]
    rfl

theorem commit_readonly_transaction_witness :
    Tx.sample.WF ∧ Reachable Tx.sample World.sample ∧
      Running Tx.sample World.sample.log sampleTxn1 ∧
      ∃ s1, commitTransaction Tx.sample World.sample.log sampleTxn1 ⟨none, true⟩ =
          (s1, .ok sampleTxn1.snapshot) ∧
        s1.csn_counter = World.sample.log.csn_counter ∧
        getLatestSnapshot s1 = getLatestSnapshot World.sample.log ∧
        s1.tid_to_csn = World.sample.log.tid_to_csn ∧
        getCSN_tid Tx.sample s1 sampleTxn1.tid = some Tx.sample.UnknownCSN :=
  ⟨sample_wf, sample_reachable, by decide,
    commit_readonly_transaction Tx.sample sample_wf World.sample sample_reachable
      sampleTxn1 ⟨none, true⟩ (by decide) rfl rfl⟩

/-- C4: when two write transactions both commit successfully, the one whose
`commitTransaction` ran first is returned a strictly smaller CSN than the
other, the two CSNs differ, and `getCSN` afterwards reports for each TID the
CSN its commit returned. -/
theorem write_commits_ordered (tx : Tx) (hwf : tx.WF) (w : World) (h : Reachable tx w)
    (t1 t2 : MergeTreeTransaction) (c1 c2 : CSN)
    (hsub : List.Sublist [Event.committed t1 false c1, Event.committed t2 false c2] w.trace) :
    c1 < c2 ∧ c1 ≠ c2 ∧
      getCSN_tid tx w.log t1.tid = some c1 ∧ getCSN_tid tx w.log t2.tid = some c2 := by
  obtain ⟨hi, -, ht⟩ := good_of_reachable hwf h
  have hlt : c1 < c2 := by
    have hs := hsub.filterMap Event.writeCSN
    exact List.pairwise_iff_forall_sublist.1 ht.increasing hs
  have hm1 := ht.commits t1 c1 (hsub.subset (by simp))
  have hm2 := ht.commits t2 c2 (hsub.subset (by simp))
  refine ⟨hlt, Nat.ne_of_lt hlt, ?_, ?_⟩
  · unfold getCSN_tid
    rw [getCSN_issued hwf hi hm1.2, hm1.1]
    rfl
  · unfold getCSN_tid
    rw [getCSN_issued hwf hi hm2.2, hm2.1]
    rfl

theorem write_commits_ordered_witness :
    Tx.sample.WF ∧ Reachable Tx.sample World.sampleCommits ∧
      List.Sublist [Event.committed sampleTxn0 false 17, Event.committed sampleTxn1 false 18]
        World.sampleCommits.trace ∧
      17 < 18 ∧ 17 ≠ 18 ∧
      getCSN_tid Tx.sample World.sampleCommits.log sampleTxn0.tid = some 17 ∧
      getCSN_tid Tx.sample World.sampleCommits.log sampleTxn1.tid = some 18 :=
  ⟨sample_wf, sampleCommits_reachable, by decide,
    write_commits_ordered Tx.sample sample_wf World.sampleCommits sampleCommits_reachable
      sampleTxn0 sampleTxn1 17 18 (by decide)⟩

/-- C5, as stated, fails: after a write commit returned 17, the commit of a
read-only transaction that began earlier returns its snapshot 16, so the CSNs
returned by successful commits are not increasing in call order. -/
theorem returned_csns_not_increasing :
    Tx.sample.WF ∧
      ¬ ∀ w, Reachable Tx.sample w → (returnedCSNs w.trace).Pairwise (· < ·) := by
  refine ⟨sample_wf, fun hall => ?_⟩
  have h := hall World.sampleMixed sampleMixed_reachable
  revert h
  decide

/-- C5, amended: the CSNs returned by the successful commits of write
transactions are strictly increasing in call order, whatever begins,
rollbacks, read-only commits and failed commits are interleaved. -/
theorem write_csns_increasing (tx : Tx) (hwf : tx.WF) (w : World) (h : Reachable tx w) :
    (writeCSNs w.trace).Pairwise (· < ·) :=
  (good_of_reachable hwf h).2.2.increasing

theorem write_csns_increasing_witness :
    Tx.sample.WF ∧ Reachable Tx.sample World.sampleCommits ∧
      (writeCSNs World.sampleCommits.trace).Pairwise (· < ·) :=
  ⟨sample_wf, sampleCommits_reachable,
    write_csns_increasing Tx.sample sample_wf World.sampleCommits sampleCommits_reachable⟩

/-- C6: registry pairing holds in every state reachable from a fresh manager,
after calls that succeed and after calls that throw: the snapshots-in-use list
holds one node per transaction of the running registry, at the position that
transaction retains and with its snapshot, and no other node. -/
theorem registry_pairing (tx : Tx) (hwf : tx.WF) (w : World) (h : Reachable tx w) :
    Paired w.log := by
  obtain ⟨hi, -, -⟩ := good_of_reachable hwf h
  exact ⟨by rw [hi.pairing], hi.its_nodup⟩

theorem registry_pairing_witness :
    Tx.sample.WF ∧ Reachable Tx.sample World.sample ∧ Paired World.sample.log :=
  ⟨sample_wf, sample_reachable,
    registry_pairing Tx.sample sample_wf World.sample sample_reachable⟩

/-- C7: in every state reachable from a fresh manager, `getLatestSnapshot()`
is at least every CSN stored in the committed-TID map, hence at least what
`getCSN` returns for the TID of any write transaction whose commit has
completed. -/
theorem latest_snapshot_bounds_csns (tx : Tx) (hwf : tx.WF) (w : World) (h : Reachable tx w) :
    (∀ e ∈ w.log.tid_to_csn, e.2 ≤ getLatestSnapshot w.log) ∧
      (∀ txn c, Event.committed txn false c ∈ w.trace →
        getCSN_tid tx w.log txn.tid = some c ∧ c ≤ getLatestSnapshot w.log) := by
  obtain ⟨hi, -, ht⟩ := good_of_reachable hwf h
  refine ⟨hi.csn_le, ?_⟩
  intro txn c hm
  have hc := ht.commits txn c hm
  constructor
  · unfold getCSN_tid
    rw [getCSN_issued hwf hi hc.2, hc.1]
    rfl
  · exact hi.csn_le _ (umap_find_some_mem hc.1)

theorem latest_snapshot_bounds_csns_witness :
    Tx.sample.WF ∧ Reachable Tx.sample World.sampleCommits ∧
      (∀ e ∈ World.sampleCommits.log.tid_to_csn,
        e.2 ≤ getLatestSnapshot World.sampleCommits.log) ∧
      (∀ txn c, Event.committed txn false c ∈ World.sampleCommits.trace →
        getCSN_tid Tx.sample World.sampleCommits.log txn.tid = some c ∧
          c ≤ getLatestSnapshot World.sampleCommits.log) :=
  ⟨sample_wf, sampleCommits_reachable,
    latest_snapshot_bounds_csns Tx.sample sample_wf World.sampleCommits
      sampleCommits_reachable⟩

/-- C8: for a TID hash that is neither zero nor the hash of the empty TID,
`getCSN` returns `PrehistoricCSN` for the hash of the prehistoric TID, whatever
the committed-TID map holds, otherwise the CSN the map gives the hash, and
`UnknownCSN` when the map has none; `getCSN` of a TID is `getCSN` of its hash.
`getCSN` is a function of the state: it returns no new one. -/
theorem getCSN_lookup (tx : Tx) (s : TransactionLog) (tid : TIDHash) (h0 : tid ≠ 0)
    (h1 : tid ≠ tx.getHash tx.EmptyTID) :
    getCSN tx s tid =
        some (if tid = tx.getHash tx.PrehistoricTID then tx.PrehistoricCSN
          else match umap_find s.tid_to_csn tid with
            | some csn => csn
            | none => tx.UnknownCSN) ∧
      ∀ t : TransactionID, getCSN_tid tx s t = getCSN tx s (tx.getHash t) := by
  refine ⟨?_, fun _ => rfl⟩
  unfold getCSN
  rw [if_neg h0, if_neg h1]
  by_cases h2 : tid = tx.getHash tx.PrehistoricTID
  · rw [if_pos h2, if_pos h2]
  · rw [if_neg h2, if_neg h2]
    cases umap_find s.tid_to_csn tid <;> rfl

theorem getCSN_lookup_witness :
    Tx.sample.getHash sampleTxn0.tid ≠ 0 ∧
      Tx.sample.getHash sampleTxn0.tid ≠ Tx.sample.getHash Tx.sample.EmptyTID ∧
      getCSN Tx.sample World.sampleCommits.log (Tx.sample.getHash sampleTxn0.tid) =
        some (if Tx.sample.getHash sampleTxn0.tid = Tx.sample.getHash Tx.sample.PrehistoricTID
          then Tx.sample.PrehistoricCSN
          else match umap_find World.sampleCommits.log.tid_to_csn
              (Tx.sample.getHash sampleTxn0.tid) with
            | some csn => csn
            | none => Tx.sample.UnknownCSN) ∧
      ∀ t : TransactionID, getCSN_tid Tx.sample World.sampleCommits.log t =
        getCSN Tx.sample World.sampleCommits.log (Tx.sample.getHash t) :=
  ⟨by decide, by decide,
    getCSN_lookup Tx.sample World.sampleCommits.log (Tx.sample.getHash sampleTxn0.tid)
      (by decide) (by decide)⟩

/-- C9: when the hash of the new TID is not in the running registry,
`beginTransaction()` returns a transaction whose snapshot is
`getLatestSnapshot()` of that moment, hence the CSN of a write commit that has
just returned; `tryGetRunningTransaction` of its hash then returns that
transaction, its snapshot is the new last node of the snapshots-in-use list,
and the CSN counter, `latest_snapshot` and the committed-TID map are as
before. -/
theorem begin_transaction (tx : Tx) (s : TransactionLog)
    (hnew : umap_find s.running_list (tx.getHash (newTxn tx s).tid) = none) :
    ∃ s1 txn, beginTransaction tx s = (s1, .ok txn) ∧
      txn.snapshot = getLatestSnapshot s ∧
      (∀ s0 txn0 hooks c, hooks.isReadOnly = false →
        commitTransaction tx s0 txn0 hooks = (s, .ok c) → txn.snapshot = c) ∧
      tryGetRunningTransaction s1 (tx.getHash txn.tid) = some txn ∧
      s1.snapshots_in_use = s.snapshots_in_use ++ [(txn.snapshot_in_use_it, txn.snapshot)] ∧
      s1.csn_counter = s.csn_counter ∧
      getLatestSnapshot s1 = getLatestSnapshot s ∧
      s1.tid_to_csn = s.tid_to_csn := by
  refine ⟨register tx s, newTxn tx s, ?_, rfl, ?_, ?_, rfl, rfl, rfl, rfl⟩
  · rw [beginTransaction_eq, hnew]
    rfl
  · intro s0 txn0 hooks c hr hc
    exact commit_write_latest hr hc
  · exact umap_find_append_new _ hnew

theorem begin_transaction_witness :
    umap_find World.sample.log.running_list
        (Tx.sample.getHash (newTxn Tx.sample World.sample.log).tid) = none ∧
      ∃ s1 txn, beginTransaction Tx.sample World.sample.log = (s1, .ok txn) ∧
        txn.snapshot = getLatestSnapshot World.sample.log ∧
        (∀ s0 txn0 hooks c, hooks.isReadOnly = false →
          commitTransaction Tx.sample s0 txn0 hooks = (World.sample.log, .ok c) →
          txn.snapshot = c) ∧
        tryGetRunningTransaction s1 (Tx.sample.getHash txn.tid) = some txn ∧
        s1.snapshots_in_use =
          World.sample.log.snapshots_in_use ++ [(txn.snapshot_in_use_it, txn.snapshot)] ∧
        s1.csn_counter = World.sample.log.csn_counter ∧
        getLatestSnapshot s1 = getLatestSnapshot World.sample.log ∧
        s1.tid_to_csn = World.sample.log.tid_to_csn :=
  ⟨by decide, begin_transaction Tx.sample World.sample.log (by decide)⟩

/-- C10: rolling back a running transaction whose `rollback()` hook returns
true takes exactly its entry out of the running registry and exactly its node
out of the snapshots-in-use list, the other entries and nodes keeping their
order and values, so that `getOldestSnapshot()` is the snapshot of the first
remaining transaction (or `latest_snapshot` when none remains); the counters,
`latest_snapshot` and the committed-TID map are unchanged and `getCSN` answers
as before. -/
theorem rollback_running_transaction (tx : Tx) (hwf : tx.WF) (w : World)
    (h : Reachable tx w) (txn : MergeTreeTransaction) (hrun : Running tx w.log txn) :
    ∃ s1 r1 r2 l1 l2, rollbackTransaction tx w.log txn true = .returned s1 ∧
      w.log.running_list = r1 ++ (tx.getHash txn.tid, txn) :: r2 ∧
      s1.running_list = r1 ++ r2 ∧
      w.log.snapshots_in_use = l1 ++ (txn.snapshot_in_use_it, txn.snapshot) :: l2 ∧
      s1.snapshots_in_use = l1 ++ l2 ∧
      (r1 ++ r2).map nodeOf = l1 ++ l2 ∧
      getOldestSnapshot s1 =
        (((r1 ++ r2).head?).map (fun e => e.2.snapshot)).getD (getLatestSnapshot s1) ∧
      s1.csn_counter = w.log.csn_counter ∧
      s1.local_tid_counter = w.log.local_tid_counter ∧
      getLatestSnapshot s1 = getLatestSnapshot w.log ∧
      s1.tid_to_csn = w.log.tid_to_csn ∧
      ∀ k, getCSN tx s1 k = getCSN tx w.log k := by
  obtain ⟨hi, -, -⟩ := good_of_reachable hwf h
  have hiss := running_issued hi hrun
  have hmem := running_mem hrun
  have hrs : (umap_find w.log.running_list (tx.getHash txn.tid)).isSome = true := by
    unfold Running tryGetRunningTransaction at hrun
    rw [hrun]
    rfl
  have hnode : (txn.snapshot_in_use_it, txn.snapshot) ∈ w.log.snapshots_in_use := by
    rw [← hi.pairing]
    exact List.mem_map_of_mem nodeOf hmem
  obtain ⟨r1, r2, hr, hr1⟩ := filter_key_split hi.keys_nodup hmem
  obtain ⟨l1, l2, hl, hl1⟩ := filter_key_split hi.its_nodup hnode
  have hd := inv_deregister hwf hi hiss hrs
  have hrun1 : (deregister tx w.log txn).running_list = r1 ++ r2 := hr1
  have hsnap1 : (deregister tx w.log txn).snapshots_in_use = l1 ++ l2 := hl1
  have hpair : (r1 ++ r2).map nodeOf = l1 ++ l2 := by
    rw [← hrun1, ← hsnap1]
    exact hd.pairing
  refine ⟨deregister tx w.log txn, r1, r2, l1, l2, ?_, hr, hrun1, hl, hsnap1, hpair, ?_,
    rfl, rfl, rfl, rfl, fun _ => rfl⟩
  · rw [rollbackTransaction_eq, if_pos rfl, if_pos hrs]
  · unfold getOldestSnapshot
    rw [hsnap1, ← hpair]
    cases r1 ++ r2 <;> rfl

theorem rollback_running_transaction_witness :
    Tx.sample.WF ∧ Reachable Tx.sample World.sample ∧
      Running Tx.sample World.sample.log sampleTxn1 ∧
      ∃ s1 r1 r2 l1 l2,
        rollbackTransaction Tx.sample World.sample.log sampleTxn1 true = .returned s1 ∧
        World.sample.log.running_list =
          r1 ++ (Tx.sample.getHash sampleTxn1.tid, sampleTxn1) :: r2 ∧
        s1.running_list = r1 ++ r2 ∧
        World.sample.log.snapshots_in_use =
          l1 ++ (sampleTxn1.snapshot_in_use_it, sampleTxn1.snapshot) :: l2 ∧
        s1.snapshots_in_use = l1 ++ l2 ∧
        (r1 ++ r2).map nodeOf = l1 ++ l2 ∧
        getOldestSnapshot s1 =
          (((r1 ++ r2).head?).map (fun e => e.2.snapshot)).getD (getLatestSnapshot s1) ∧
        s1.csn_counter = World.sample.log.csn_counter ∧
        s1.local_tid_counter = World.sample.log.local_tid_counter ∧
        getLatestSnapshot s1 = getLatestSnapshot World.sample.log ∧
        s1.tid_to_csn = World.sample.log.tid_to_csn ∧
        ∀ k, getCSN Tx.sample s1 k = getCSN Tx.sample World.sample.log k :=
  ⟨sample_wf, sample_reachable, by decide,
    rollback_running_transaction Tx.sample sample_wf World.sample sample_reachable
      sampleTxn1 (by decide)⟩

/-- C11: when the `rollback()` hook returns false, `rollbackTransaction`
returns normally with the manager state it was called in, whatever that state
is and whether or not the transaction is in the running registry: no registry
entry, snapshot node, map entry or counter changes and nothing aborts. -/
theorem rollback_not_needed (tx : Tx) (s : TransactionLog) (txn : MergeTreeTransaction) :
    rollbackTransaction tx s txn false = .returned s ∧
      ∀ s1, rollbackTransaction tx s txn false ≠ .aborted s1 := by
  have h : rollbackTransaction tx s txn false = .returned s := by
    rw [rollbackTransaction_eq]
    rfl
  refine ⟨h, fun s1 => ?_⟩
  rw [h]
  exact fun habs => RollbackOutcome.noConfusion habs

theorem rollback_not_needed_witness :
    tryGetRunningTransaction World.sampleCommits.log (Tx.sample.getHash sampleTxn0.tid) = none ∧
      rollbackTransaction Tx.sample World.sampleCommits.log sampleTxn0 false =
        .returned World.sampleCommits.log ∧
      ∀ s1, rollbackTransaction Tx.sample World.sampleCommits.log sampleTxn0 false ≠
        .aborted s1 :=
  ⟨by decide, rollback_not_needed Tx.sample World.sampleCommits.log sampleTxn0⟩

/-- C12: when the pre-commit hook fails, `commitTransaction` fails with the
error of the hook and the manager state is the one it was called in; a
transaction that was running is still returned by `tryGetRunningTransaction`,
and a following `rollbackTransaction` whose hook asks for deregistration
returns normally with the transaction out of the registry and its node out of
the snapshots-in-use list. -/
theorem commit_failed_hook (tx : Tx) (s : TransactionLog) (txn : MergeTreeTransaction)
    (hooks : CommitHooks) (e : Exception) (hb : hooks.beforeCommit = some e)
    (hrun : Running tx s txn) :
    ∃ s1, commitTransaction tx s txn hooks = (s1, .error e) ∧ s1 = s ∧
      tryGetRunningTransaction s1 (tx.getHash txn.tid) = some txn ∧
      ∃ s2, rollbackTransaction tx s1 txn true = .returned s2 ∧
        tryGetRunningTransaction s2 (tx.getHash txn.tid) = none ∧
        s2.running_list = (umap_erase s.running_list (tx.getHash txn.tid)).1 ∧
        s2.snapshots_in_use = list_erase s.snapshots_in_use txn.snapshot_in_use_it := by
  have hrs : (umap_find s.running_list (tx.getHash txn.tid)).isSome = true := by
    unfold Running tryGetRunningTransaction at hrun
    rw [hrun]
    rfl
  refine ⟨s, commitTransaction_failed_hook tx s txn hooks e hb, rfl, hrun,
    deregister tx s txn, ?_, umap_find_erase_self _ _, rfl, rfl⟩
  rw [rollbackTransaction_eq, if_pos rfl, if_pos hrs]

theorem commit_failed_hook_witness :
    Running Tx.sample World.sample.log sampleTxn1 ∧
      ∃ s1, commitTransaction Tx.sample World.sample.log sampleTxn1 ⟨some (.other 3), false⟩ =
          (s1, .error (.other 3)) ∧ s1 = World.sample.log ∧
        tryGetRunningTransaction s1 (Tx.sample.getHash sampleTxn1.tid) = some sampleTxn1 ∧
        ∃ s2, rollbackTransaction Tx.sample s1 sampleTxn1 true = .returned s2 ∧
          tryGetRunningTransaction s2 (Tx.sample.getHash sampleTxn1.tid) = none ∧
          s2.running_list =
            (umap_erase World.sample.log.running_list (Tx.sample.getHash sampleTxn1.tid)).1 ∧
          s2.snapshots_in_use =
            list_erase World.sample.log.snapshots_in_use sampleTxn1.snapshot_in_use_it :=
  ⟨by decide,
    commit_failed_hook Tx.sample World.sample.log sampleTxn1 ⟨some (.other 3), false⟩ (.other 3)
      rfl (by decide)⟩

/-- C13, as stated, fails where the two constants differ: with `PrehistoricCSN`
1 and `MaxReservedCSN` 16 the first transaction of a fresh manager has
snapshot 16. -/
theorem first_snapshot_not_prehistoric :
    ¬ ∀ s1 txn, beginTransaction Tx.sample (TransactionLog.init Tx.sample) = (s1, .ok txn) →
      txn.snapshot = Tx.sample.PrehistoricCSN := by
  intro hall
  have h := hall (register Tx.sample (TransactionLog.init Tx.sample))
    (newTxn Tx.sample (TransactionLog.init Tx.sample)) (beginTransaction_init Tx.sample)
  revert h
  decide

/-- C13, amended: the first transaction a freshly constructed manager returns
has snapshot `MaxReservedCSN`, the value the constructor stores in
`latest_snapshot`; that is `PrehistoricCSN` exactly when the two constants
are equal. -/
theorem first_snapshot (tx : Tx) :
    ∃ s1 txn, beginTransaction tx (TransactionLog.init tx) = (s1, .ok txn) ∧
      txn.snapshot = tx.MaxReservedCSN ∧
      (txn.snapshot = tx.PrehistoricCSN ↔ tx.MaxReservedCSN = tx.PrehistoricCSN) := by
  exact ⟨register tx (TransactionLog.init tx), newTxn tx (TransactionLog.init tx),
    beginTransaction_init tx, rfl, Iff.rfl⟩

/-- C15: `rollbackTransaction` ends in one of two ways, a normal return or
`abort()`; it aborts exactly when the `rollback()` hook returned true and the
TID hash is absent from the running registry, and then the state at the abort
is the state it was called in, the snapshots-in-use list included. -/
theorem rollback_outcomes (tx : Tx) (s : TransactionLog) (txn : MergeTreeTransaction)
    (need_rollback : Bool) :
    ((∃ s1, rollbackTransaction tx s txn need_rollback = .returned s1) ∨
        (∃ s1, rollbackTransaction tx s txn need_rollback = .aborted s1)) ∧
      ((∃ s1, rollbackTransaction tx s txn need_rollback = .aborted s1) ↔
        (need_rollback = true ∧ tryGetRunningTransaction s (tx.getHash txn.tid) = none)) ∧
      (∀ s1, rollbackTransaction tx s txn need_rollback = .aborted s1 →
        s1 = s ∧ s1.snapshots_in_use = s.snapshots_in_use) := by
  rw [rollbackTransaction_eq]
  unfold tryGetRunningTransaction
  cases need_rollback with
  | false => simp
  | true =>
    cases hf : umap_find s.running_list (tx.getHash txn.tid) with
    | none =>
      simp only [Option.isSome_none, Bool.false_eq_true, if_false, if_true]
      refine ⟨Or.inr ⟨s, rfl⟩, ⟨fun _ => ⟨trivial, trivial⟩, fun _ => ⟨s, rfl⟩⟩, ?_⟩
      intro s1 h1
      cases h1
      exact ⟨rfl, rfl⟩
    | some t => simp

theorem rollback_outcomes_witness :
    tryGetRunningTransaction World.sampleCommits.log (Tx.sample.getHash sampleTxn0.tid) = none ∧
      ((∃ s1, rollbackTransaction Tx.sample World.sampleCommits.log sampleTxn0 true =
          .returned s1) ∨
        (∃ s1, rollbackTransaction Tx.sample World.sampleCommits.log sampleTxn0 true =
          .aborted s1)) ∧
      ((∃ s1, rollbackTransaction Tx.sample World.sampleCommits.log sampleTxn0 true =
          .aborted s1) ↔
        (true = true ∧
          tryGetRunningTransaction World.sampleCommits.log (Tx.sample.getHash sampleTxn0.tid) =
            none)) ∧
      (∀ s1, rollbackTransaction Tx.sample World.sampleCommits.log sampleTxn0 true =
          .aborted s1 →
        s1 = World.sampleCommits.log ∧
          s1.snapshots_in_use = World.sampleCommits.log.snapshots_in_use) :=
  ⟨by decide, rollback_outcomes Tx.sample World.sampleCommits.log sampleTxn0 true⟩

/-- C16: when the hash of the TID being created is already in the running
registry, `beginTransaction()` fails with a logical error; the registry still
maps the hash to the transaction registered before, the snapshots-in-use list,
`latest_snapshot`, the CSN counter and the committed-TID map are unchanged, and
the local-TID counter has advanced by one. -/
theorem begin_collision (tx : Tx) (s : TransactionLog) (old : MergeTreeTransaction)
    (hold : tryGetRunningTransaction s (tx.getHash (newTxn tx s).tid) = some old) :
    ∃ s1, beginTransaction tx s = (s1, .error .LOGICAL_ERROR) ∧
      tryGetRunningTransaction s1 (tx.getHash (newTxn tx s).tid) = some old ∧
      s1.running_list = s.running_list ∧
      s1.snapshots_in_use = s.snapshots_in_use ∧
      getLatestSnapshot s1 = getLatestSnapshot s ∧
      s1.csn_counter = s.csn_counter ∧
      s1.tid_to_csn = s.tid_to_csn ∧
      s1.local_tid_counter = s.local_tid_counter + 1 := by
  refine ⟨{ s with local_tid_counter := s.local_tid_counter + 1 }, ?_, hold, rfl, rfl, rfl, rfl,
    rfl, rfl⟩
  unfold tryGetRunningTransaction at hold
  rw [beginTransaction_eq, hold]
  rfl

theorem begin_collision_witness :
    tryGetRunningTransaction TransactionLog.sampleColliding
        (Tx.colliding.getHash (newTxn Tx.colliding TransactionLog.sampleColliding).tid) =
        some sampleTxn0 ∧
      ∃ s1, beginTransaction Tx.colliding TransactionLog.sampleColliding =
          (s1, .error .LOGICAL_ERROR) ∧
        tryGetRunningTransaction s1
            (Tx.colliding.getHash (newTxn Tx.colliding TransactionLog.sampleColliding).tid) =
          some sampleTxn0 ∧
        s1.running_list = TransactionLog.sampleColliding.running_list ∧
        s1.snapshots_in_use = TransactionLog.sampleColliding.snapshots_in_use ∧
        getLatestSnapshot s1 = getLatestSnapshot TransactionLog.sampleColliding ∧
        s1.csn_counter = TransactionLog.sampleColliding.csn_counter ∧
        s1.tid_to_csn = TransactionLog.sampleColliding.tid_to_csn ∧
        s1.local_tid_counter = TransactionLog.sampleColliding.local_tid_counter + 1 :=
  ⟨by decide,
    begin_collision Tx.colliding TransactionLog.sampleColliding sampleTxn0 (by decide)⟩

/-- C20: committing a write transaction whose pre-commit hook succeeds and
whose TID hash is neither in the running registry nor in the committed-TID map
fails with a logical error after the commit point: the CSN counter has
advanced by one, the committed-TID map gives the hash the new CSN,
`latest_snapshot` is the new CSN, and the running registry and the
snapshots-in-use list are unchanged. -/
theorem commit_fails_after_commit_point (tx : Tx) (s : TransactionLog)
    (txn : MergeTreeTransaction) (hooks : CommitHooks) (hb : hooks.beforeCommit = none)
    (hr : hooks.isReadOnly = false)
    (habsent : tryGetRunningTransaction s (tx.getHash txn.tid) = none)
    (hnew : umap_find s.tid_to_csn (tx.getHash txn.tid) = none) :
    ∃ s1, commitTransaction tx s txn hooks = (s1, .error .LOGICAL_ERROR) ∧
      s1.csn_counter = s.csn_counter + 1 ∧
      umap_find s1.tid_to_csn (tx.getHash txn.tid) = some (s.csn_counter + 1) ∧
      s1.tid_to_csn = s.tid_to_csn ++ [(tx.getHash txn.tid, s.csn_counter + 1)] ∧
      getLatestSnapshot s1 = s.csn_counter + 1 ∧
      s1.running_list = s.running_list ∧
      s1.snapshots_in_use = s.snapshots_in_use := by
  unfold tryGetRunningTransaction at habsent
  refine ⟨commitPoint tx s txn, ?_, rfl, ?_, ?_, Nat.add_comm _ _, rfl, rfl⟩
  · rw [commitTransaction_write tx s txn hooks hb hr, hnew, habsent]
    rfl
  · show umap_find (s.tid_to_csn ++ [(tx.getHash txn.tid, 1 + s.csn_counter)]) _ = _
    rw [Nat.add_comm 1]
    exact umap_find_append_new _ hnew
  · show s.tid_to_csn ++ [(tx.getHash txn.tid, 1 + s.csn_counter)] = _
    rw [Nat.add_comm]

theorem commit_fails_after_commit_point_witness :
    tryGetRunningTransaction World.sampleRolledBack.log (Tx.sample.getHash sampleTxn0.tid) =
        none ∧
      umap_find World.sampleRolledBack.log.tid_to_csn (Tx.sample.getHash sampleTxn0.tid) =
        none ∧
      ∃ s1, commitTransaction Tx.sample World.sampleRolledBack.log sampleTxn0 ⟨none, false⟩ =
          (s1, .error .LOGICAL_ERROR) ∧
        s1.csn_counter = World.sampleRolledBack.log.csn_counter + 1 ∧
        umap_find s1.tid_to_csn (Tx.sample.getHash sampleTxn0.tid) =
          some (World.sampleRolledBack.log.csn_counter + 1) ∧
        s1.tid_to_csn = World.sampleRolledBack.log.tid_to_csn ++
          [(Tx.sample.getHash sampleTxn0.tid, World.sampleRolledBack.log.csn_counter + 1)] ∧
        getLatestSnapshot s1 = World.sampleRolledBack.log.csn_counter + 1 ∧
        s1.running_list = World.sampleRolledBack.log.running_list ∧
        s1.snapshots_in_use = World.sampleRolledBack.log.snapshots_in_use :=
  ⟨by decide, by decide,
    commit_fails_after_commit_point Tx.sample World.sampleRolledBack.log sampleTxn0
      ⟨none, false⟩ rfl rfl (by decide) (by decide)⟩

/-- C14: the committed-TID map is append-only. A hash mapped to a CSN keeps
that CSN through `beginTransaction`, through `commitTransaction` with any
transaction and hooks, through `rollbackTransaction`, and so through every
sequence of calls, and `getCSN` of the hash does not change; committing a
write transaction whose hash is already in the map fails with a logical error
and leaves the map as it was. -/
theorem committed_map_append_only (tx : Tx) (s : TransactionLog) (k : TIDHash) (c : CSN)
    (hm : umap_find s.tid_to_csn k = some c) :
    umap_find (beginTransaction tx s).1.tid_to_csn k = some c ∧
      (∀ txn hooks, umap_find (commitTransaction tx s txn hooks).1.tid_to_csn k = some c) ∧
      (∀ txn need_rollback,
        umap_find (rollbackTransaction tx s txn need_rollback).state.tid_to_csn k = some c) ∧
      (∀ issued trace calls w1, run tx ⟨s, issued, trace⟩ calls = some w1 →
        umap_find w1.log.tid_to_csn k = some c ∧ getCSN tx w1.log k = getCSN tx s k) ∧
      (∀ txn hooks, tx.getHash txn.tid = k → hooks.beforeCommit = none →
        hooks.isReadOnly = false →
        ∃ s1, commitTransaction tx s txn hooks = (s1, .error .LOGICAL_ERROR) ∧
          s1.tid_to_csn = s.tid_to_csn) := by
  refine ⟨?_, ?_, ?_, ?_, ?_⟩
  · rw [(beginTransaction_frame tx s).1]
    exact hm
  · intro txn hooks
    exact commitTransaction_keeps tx s txn hooks hm
  · intro txn need_rollback
    rw [(rollbackTransaction_frame tx s txn need_rollback).2.2.2]
    exact hm
  · intro issued trace calls w1 hrun
    have h1 : umap_find w1.log.tid_to_csn k = some c := map_kept_run calls hrun hm
    exact ⟨h1, getCSN_congr tx (h1.trans hm.symm)⟩
  · intro txn hooks hk hb hr
    refine ⟨{ s with csn_counter := s.csn_counter + 1 }, ?_, rfl⟩
    rw [commitTransaction_write tx s txn hooks hb hr, hk, hm]
    rfl

theorem committed_map_append_only_witness :
    umap_find World.sampleCommits.log.tid_to_csn (Tx.sample.getHash sampleTxn0.tid) = some 17 ∧
      umap_find (beginTransaction Tx.sample World.sampleCommits.log).1.tid_to_csn
          (Tx.sample.getHash sampleTxn0.tid) = some 17 ∧
      (∀ txn hooks,
        umap_find (commitTransaction Tx.sample World.sampleCommits.log txn hooks).1.tid_to_csn
          (Tx.sample.getHash sampleTxn0.tid) = some 17) ∧
      (∀ txn need_rollback,
        umap_find
          (rollbackTransaction Tx.sample World.sampleCommits.log txn
            need_rollback).state.tid_to_csn
          (Tx.sample.getHash sampleTxn0.tid) = some 17) ∧
      (∀ issued trace calls w1,
        run Tx.sample ⟨World.sampleCommits.log, issued, trace⟩ calls = some w1 →
        umap_find w1.log.tid_to_csn (Tx.sample.getHash sampleTxn0.tid) = some 17 ∧
          getCSN Tx.sample w1.log (Tx.sample.getHash sampleTxn0.tid) =
            getCSN Tx.sample World.sampleCommits.log (Tx.sample.getHash sampleTxn0.tid)) ∧
      (∀ txn hooks, Tx.sample.getHash txn.tid = Tx.sample.getHash sampleTxn0.tid →
        hooks.beforeCommit = none → hooks.isReadOnly = false →
        ∃ s1, commitTransaction Tx.sample World.sampleCommits.log txn hooks =
            (s1, .error .LOGICAL_ERROR) ∧
          s1.tid_to_csn = World.sampleCommits.log.tid_to_csn) :=
  ⟨by decide,
    committed_map_append_only Tx.sample World.sampleCommits.log
      (Tx.sample.getHash sampleTxn0.tid) 17 (by decide)⟩

/-- C17: after any sequence of calls on a fresh manager the local-TID counter
is `MaxReservedLocalTID` plus the number of `beginTransaction` calls made,
failed ones included, so the next call, the k-th, advances it to
`MaxReservedLocalTID + k` and creates its TID with that local id; the local
ids of the transactions handed out are strictly increasing in begin order,
hence distinct, and above the reserved range; `commitTransaction` and
`rollbackTransaction` leave the counter alone. -/
theorem local_tid_counter_issues (tx : Tx) (calls : List Call) (w : World)
    (h : run tx (World.init tx) calls = some w) :
    w.log.local_tid_counter = tx.MaxReservedLocalTID + beginCalls calls ∧
      (beginTransaction tx w.log).1.local_tid_counter =
        tx.MaxReservedLocalTID + (beginCalls calls + 1) ∧
      (newTxn tx w.log).tid.local_tid = tx.MaxReservedLocalTID + (beginCalls calls + 1) ∧
      (∀ s1 txn, beginTransaction tx w.log = (s1, .ok txn) →
        txn.tid.local_tid = tx.MaxReservedLocalTID + (beginCalls calls + 1)) ∧
      (w.issued.map (fun t => t.tid.local_tid)).Pairwise (· < ·) ∧
      (∀ t ∈ w.issued, tx.MaxReservedLocalTID < t.tid.local_tid) ∧
      (∀ txn hooks,
        (commitTransaction tx w.log txn hooks).1.local_tid_counter = w.log.local_tid_counter) ∧
      (∀ txn need_rollback,
        (rollbackTransaction tx w.log txn need_rollback).state.local_tid_counter =
          w.log.local_tid_counter) := by
  have hc := counters_run calls (counters_init tx) h
  have hcount : w.log.local_tid_counter = tx.MaxReservedLocalTID + beginCalls calls :=
    (counts_run calls h).1
  have hnew : (newTxn tx w.log).tid.local_tid =
      tx.MaxReservedLocalTID + (beginCalls calls + 1) := by
    show 1 + w.log.local_tid_counter = _
    rw [hcount, Nat.add_comm, Nat.add_assoc]
  refine ⟨hcount, ?_, hnew, ?_, hc.issued_sorted, fun t ht => (hc.issued_gt t ht).1, ?_, ?_⟩
  · rw [(beginTransaction_frame tx w.log).2.1, hcount, Nat.add_assoc]
  · intro s1 txn hb
    rw [(beginTransaction_frame tx w.log).2.2 s1 txn hb]
    exact hnew
  · intro txn hooks
    exact (commitTransaction_counters tx w.log txn hooks).1
  · intro txn need_rollback
    exact (rollbackTransaction_frame tx w.log txn need_rollback).1

theorem local_tid_counter_issues_witness :
    run Tx.sample (World.init Tx.sample) recommitCalls = some World.sampleRecommit ∧
      World.sampleRecommit.log.local_tid_counter =
        Tx.sample.MaxReservedLocalTID + beginCalls recommitCalls ∧
      (beginTransaction Tx.sample World.sampleRecommit.log).1.local_tid_counter =
        Tx.sample.MaxReservedLocalTID + (beginCalls recommitCalls + 1) ∧
      (newTxn Tx.sample World.sampleRecommit.log).tid.local_tid =
        Tx.sample.MaxReservedLocalTID + (beginCalls recommitCalls + 1) ∧
      (∀ s1 txn, beginTransaction Tx.sample World.sampleRecommit.log = (s1, .ok txn) →
        txn.tid.local_tid = Tx.sample.MaxReservedLocalTID + (beginCalls recommitCalls + 1)) ∧
      (World.sampleRecommit.issued.map (fun t => t.tid.local_tid)).Pairwise (· < ·) ∧
      (∀ t ∈ World.sampleRecommit.issued, Tx.sample.MaxReservedLocalTID < t.tid.local_tid) ∧
      (∀ txn hooks,
        (commitTransaction Tx.sample World.sampleRecommit.log txn hooks).1.local_tid_counter =
          World.sampleRecommit.log.local_tid_counter) ∧
      (∀ txn need_rollback,
        (rollbackTransaction Tx.sample World.sampleRecommit.log txn
            need_rollback).state.local_tid_counter =
          World.sampleRecommit.log.local_tid_counter) :=
  ⟨sampleRecommit_run,
    local_tid_counter_issues Tx.sample recommitCalls World.sampleRecommit sampleRecommit_run⟩

/-- C18: in every state reachable from a fresh manager the snapshots-in-use
list is in non-decreasing order from head to tail: every node is at most
`latest_snapshot`, hence at most the snapshot the next `beginTransaction`
appends, erasing a node keeps the order, and the head, which
`getOldestSnapshot()` returns, is at most every node, equal values
included. -/
theorem snapshots_in_use_sorted (tx : Tx) (hwf : tx.WF) (w : World) (h : Reachable tx w) :
    (w.log.snapshots_in_use.map Prod.snd).Pairwise (· ≤ ·) ∧
      (∀ n ∈ w.log.snapshots_in_use, n.2 ≤ getLatestSnapshot w.log) ∧
      (∀ s1 txn, beginTransaction tx w.log = (s1, .ok txn) →
        s1.snapshots_in_use = w.log.snapshots_in_use ++ [(txn.snapshot_in_use_it, txn.snapshot)] ∧
          ∀ n ∈ w.log.snapshots_in_use, n.2 ≤ txn.snapshot) ∧
      (∀ it, ((list_erase w.log.snapshots_in_use it).map Prod.snd).Pairwise (· ≤ ·)) ∧
      (∀ n ∈ w.log.snapshots_in_use, getOldestSnapshot w.log ≤ n.2) := by
  obtain ⟨hi, -, -⟩ := good_of_reachable hwf h
  refine ⟨hi.sorted, hi.snap_le, ?_, ?_, oldest_le_of_mem hi.sorted⟩
  · intro s1 txn hb
    have ht := (beginTransaction_frame tx w.log).2.2 s1 txn hb
    subst ht
    refine ⟨?_, hi.snap_le⟩
    rw [beginTransaction_eq] at hb
    split_ifs at hb
    · simp at hb
    · simp only [Prod.mk.injEq] at hb
      rw [← hb.1]
      rfl
  · intro it
    exact hi.sorted.sublist ((List.filter_sublist _).map _)

theorem snapshots_in_use_sorted_witness :
    Tx.sample.WF ∧ Reachable Tx.sample World.sample ∧
      (World.sample.log.snapshots_in_use.map Prod.snd).Pairwise (· ≤ ·) ∧
      (∀ n ∈ World.sample.log.snapshots_in_use, n.2 ≤ getLatestSnapshot World.sample.log) ∧
      (∀ s1 txn, beginTransaction Tx.sample World.sample.log = (s1, .ok txn) →
        s1.snapshots_in_use =
            World.sample.log.snapshots_in_use ++ [(txn.snapshot_in_use_it, txn.snapshot)] ∧
          ∀ n ∈ World.sample.log.snapshots_in_use, n.2 ≤ txn.snapshot) ∧
      (∀ it, ((list_erase World.sample.log.snapshots_in_use it).map Prod.snd).Pairwise
        (· ≤ ·)) ∧
      (∀ n ∈ World.sample.log.snapshots_in_use, getOldestSnapshot World.sample.log ≤ n.2) :=
  ⟨sample_wf, sample_reachable,
    snapshots_in_use_sorted Tx.sample sample_wf World.sample sample_reachable⟩

/-- C19: the CSN counter and `latest_snapshot` start at `MaxReservedCSN`; after
any sequence of calls the CSN counter is `MaxReservedCSN` plus the number of
calls that reached the commit point, so the next write commit that reaches
it, the n-th, is assigned `MaxReservedCSN + n` and returns that value when it
succeeds; every CSN a write commit returned is above `MaxReservedCSN`, hence
neither `UnknownCSN` nor `PrehistoricCSN`, which lie in the reserved range. -/
theorem csn_above_reserved (tx : Tx) (hu : tx.UnknownCSN ≤ tx.MaxReservedCSN)
    (hp : tx.PrehistoricCSN ≤ tx.MaxReservedCSN) (calls : List Call) (w : World)
    (h : run tx (World.init tx) calls = some w) :
    (TransactionLog.init tx).csn_counter = tx.MaxReservedCSN ∧
      getLatestSnapshot (TransactionLog.init tx) = tx.MaxReservedCSN ∧
      w.log.csn_counter = tx.MaxReservedCSN + commitPointCalls calls ∧
      (∀ i hooks w1, (Call.commit i hooks).reachesCommitPoint = true →
        step tx w (.commit i hooks) = some w1 →
        w1.log.csn_counter = tx.MaxReservedCSN + (commitPointCalls calls + 1) ∧
          ∀ txn c, w1.trace = w.trace ++ [.committed txn false c] →
            c = tx.MaxReservedCSN + (commitPointCalls calls + 1)) ∧
      (∀ c ∈ writeCSNs w.trace,
        tx.MaxReservedCSN < c ∧ c ≠ tx.UnknownCSN ∧ c ≠ tx.PrehistoricCSN) := by
  have hc := counters_run calls (counters_init tx) h
  have hcount : w.log.csn_counter = tx.MaxReservedCSN + commitPointCalls calls :=
    (counts_run calls h).2
  refine ⟨rfl, rfl, hcount, ?_, ?_⟩
  · intro i hooks w1 hreach hs
    obtain ⟨txn0, -, hl, -, ht⟩ := step_commit_inv hs
    obtain ⟨-, hc2, hc3⟩ := commitTransaction_counters tx w.log txn0 hooks
    have hreach0 : (Call.commit 0 hooks).reachesCommitPoint = true := hreach
    constructor
    · rw [hl, hc2, hreach0, hcount, Nat.add_assoc]
      rfl
    · intro txn c heq
      rcases ht with ⟨c0, hok, ht⟩ | ⟨e, -, ht⟩
      · rw [ht] at heq
        simp only [List.append_cancel_left_eq, List.cons.injEq, Event.committed.injEq,
          and_true] at heq
        obtain ⟨-, hro, hcc⟩ := heq
        rw [← hcc, (hc3 c0 hok hro).1, hcount, Nat.add_assoc]
      · rw [ht] at heq
        simp at heq
  · intro c hcm
    have hgt := hc.write_gt c hcm
    refine ⟨hgt, ?_, ?_⟩
    · intro heq
      rw [heq] at hgt
      exact Nat.lt_irrefl _ (Nat.lt_of_lt_of_le hgt hu)
    · intro heq
      rw [heq] at hgt
      exact Nat.lt_irrefl _ (Nat.lt_of_lt_of_le hgt hp)

theorem csn_above_reserved_witness :
    Tx.sample.UnknownCSN ≤ Tx.sample.MaxReservedCSN ∧
      Tx.sample.PrehistoricCSN ≤ Tx.sample.MaxReservedCSN ∧
      run Tx.sample (World.init Tx.sample) sampleCalls = some World.sample ∧
      (TransactionLog.init Tx.sample).csn_counter = Tx.sample.MaxReservedCSN ∧
      getLatestSnapshot (TransactionLog.init Tx.sample) = Tx.sample.MaxReservedCSN ∧
      World.sample.log.csn_counter = Tx.sample.MaxReservedCSN + commitPointCalls sampleCalls ∧
      (∀ i hooks w1, (Call.commit i hooks).reachesCommitPoint = true →
        step Tx.sample World.sample (.commit i hooks) = some w1 →
        w1.log.csn_counter = Tx.sample.MaxReservedCSN + (commitPointCalls sampleCalls + 1) ∧
          ∀ txn c, w1.trace = World.sample.trace ++ [.committed txn false c] →
            c = Tx.sample.MaxReservedCSN + (commitPointCalls sampleCalls + 1)) ∧
      (∀ c ∈ writeCSNs World.sample.trace,
        Tx.sample.MaxReservedCSN < c ∧ c ≠ Tx.sample.UnknownCSN ∧
          c ≠ Tx.sample.PrehistoricCSN) :=
  ⟨by decide, by decide, sample_run,
    csn_above_reserved Tx.sample (by decide) (by decide) sampleCalls World.sample sample_run⟩

end DB
